import Mathlib

/-!
# Verification of the `web_crawler.py` crawler core

This file gives a shallow embedding of the crawler in `src/web_crawler.py`
and settles the frozen claims about it.

Python strings are modelled as `List Char` (`PyStr`).  The crawler's URL
handling is built on CPython's `urllib.parse` (version 3.11), whose
`urlsplit` / `urlparse` / `urlunsplit` / `urlunparse` / `urljoin` are ported
here verbatim (the IPv6-bracket validation error paths, which only raise on
URLs none of our inputs contain, are omitted; `str.lower` is modelled on
ASCII, which covers every character class the crawler's URLs use).

HTML documents (BeautifulSoup trees) are modelled as a `Node` tree; the
third-party `markdownify` converter and `hashlib.md5` are external
collaborators of the repository and enter the model as opaque function
parameters carried by the `World` environment, as do the network
(`page.goto`) and the filesystem side of `download_pdf`.
-/

set_option maxHeartbeats 4000000

namespace Crawler

/-- Python strings as lists of characters. -/
abbrev PyStr := List Char

/-- Interpret a Lean string literal as a `PyStr`. -/
def lit (s : String) : PyStr := s.data

/-! ## Basic Python string helpers -/

/-- Split at the first occurrence of `c`: returns the part before, and
`some` of the part after (or `none` when `c` does not occur). -/
def splitOnFirst (c : Char) : PyStr → PyStr × Option PyStr
  | [] => ([], none)
  | x :: xs =>
    if x = c then ([], some xs)
    else
      let r := splitOnFirst c xs
      (x :: r.1, r.2)

/-- Split at the last occurrence of `c` (before, after). -/
def splitOnLast (c : Char) (s : PyStr) : Option (PyStr × PyStr) :=
  match splitOnFirst c s.reverse with
  | (_, none) => none
  | (after, some before) => some (before.reverse, after.reverse)

/-- Python `str.split(c)`: always a non-empty list of pieces. -/
def pySplit (c : Char) : PyStr → List PyStr
  | [] => [[]]
  | x :: xs =>
    if x = c then [] :: pySplit c xs
    else
      match pySplit c xs with
      | h :: t => (x :: h) :: t
      | [] => [[x]]

/-- Python `str.rstrip(c)` for a single strip character. -/
def rstripChar (c : Char) (s : PyStr) : PyStr :=
  (s.reverse.dropWhile (fun x => x = c)).reverse

/-- Python whitespace for `str.strip()` (ASCII fragment). -/
def pyIsSpace (c : Char) : Bool :=
  c = ' ' || c = '\t' || c = '\n' || c = '\r' || c = '\x0b' || c = '\x0c'

/-- Python `str.strip()` (no arguments), ASCII whitespace. -/
def pyStrip (s : PyStr) : PyStr :=
  ((s.dropWhile pyIsSpace).reverse.dropWhile pyIsSpace).reverse

/-- Strip (from both ends) characters belonging to `cs`, as in `str.strip(cs)`. -/
def stripChars (cs : List Char) (s : PyStr) : PyStr :=
  ((s.dropWhile (fun c => c ∈ cs)).reverse.dropWhile (fun c => c ∈ cs)).reverse

/-- ASCII lower-casing of one character (Python `str.lower` on ASCII). -/
def lowerChar (c : Char) : Char :=
  if 'A' ≤ c ∧ c ≤ 'Z' then Char.ofNat (c.toNat + 32) else c

/-- ASCII `str.lower()`. -/
def pyLower (s : PyStr) : PyStr := s.map lowerChar

/-- Substring occurrence test. -/
def containsSub (pat : PyStr) (s : PyStr) : Bool :=
  s.tails.any (fun t => pat.isPrefixOf t)

/-- Case-insensitive substring test (`re.search(pat, s, re.IGNORECASE)` for a
literal pattern). -/
def ciContains (pat : PyStr) (s : PyStr) : Bool :=
  containsSub (pyLower pat) (pyLower s)

/-- Case-insensitive suffix test. -/
def ciEndsWith (pat : PyStr) (s : PyStr) : Bool :=
  (pyLower pat).isSuffixOf (pyLower s)

/-- Plain suffix test, `str.endswith`. -/
def pyEndsWith (pat : PyStr) (s : PyStr) : Bool :=
  pat.isSuffixOf s

/-! ## `urllib.parse` (CPython 3.11) -/

/-- Characters allowed in a URL scheme after the first letter. -/
def isSchemeChar (c : Char) : Bool :=
  ('a' ≤ c ∧ c ≤ 'z') || ('A' ≤ c ∧ c ≤ 'Z') || ('0' ≤ c ∧ c ≤ '9')
    || c = '+' || c = '-' || c = '.'

/-- ASCII letter test (`url[0].isascii() and url[0].isalpha()`). -/
def isAsciiAlpha (c : Char) : Bool :=
  ('a' ≤ c ∧ c ≤ 'z') || ('A' ≤ c ∧ c ≤ 'Z')

/-- WHATWG C0-control-or-space class stripped from the left of URLs. -/
def isC0OrSpace (c : Char) : Bool := c.toNat ≤ 32

/-- The `\t`, `\r`, `\n` bytes removed from URLs before parsing. -/
def isUnsafeByte (c : Char) : Bool := c = '\t' || c = '\r' || c = '\n'

/-- The sanitisation `urlsplit` applies before parsing: left-strip
C0-control/space, then delete tab, CR and LF everywhere. -/
def sanitize (u : PyStr) : PyStr :=
  (u.dropWhile isC0OrSpace).filter (fun c => ¬ isUnsafeByte c)

/-- Result of `urlsplit` (5 components). -/
structure SplitResult where
  scheme : PyStr
  netloc : PyStr
  path : PyStr
  query : PyStr
  fragment : PyStr
deriving Repr, DecidableEq

/-- Result of `urlparse` (6 components, with params). -/
structure ParseResult where
  scheme : PyStr
  netloc : PyStr
  path : PyStr
  params : PyStr
  query : PyStr
  fragment : PyStr
deriving Repr, DecidableEq

/-- Detect and strip a URL scheme:
`i = url.find(':'); if i > 0 and url[0].isascii() and url[0].isalpha() and
all chars of url[:i] are scheme chars: return (url[:i].lower(), url[i+1:])`. -/
def splitScheme (u : PyStr) : Option (PyStr × PyStr) :=
  match splitOnFirst ':' u with
  | (pre, some rest) =>
    if pre ≠ [] ∧ isAsciiAlpha (pre.headD ' ') ∧ pre.all isSchemeChar then
      some (pyLower pre, rest)
    else none
  | (_, none) => none

/-- Is this character a netloc delimiter (`/`, `?` or `#`)? -/
def isNetlocDelim (c : Char) : Bool := c = '/' || c = '?' || c = '#'

/-- `urlsplit(url, scheme='')` with `allow_fragments=True`. -/
def urlsplitPy (url : PyStr) (defaultScheme : PyStr := []) : SplitResult :=
  let u0 := sanitize url
  let (scheme, u1) :=
    match splitScheme u0 with
    | some (s, rest) => (s, rest)
    | none => (defaultScheme, u0)
  let (netloc, u2) :=
    if u1.take 2 = lit "//" then
      ((u1.drop 2).takeWhile (fun c => ¬ isNetlocDelim c),
       (u1.drop 2).dropWhile (fun c => ¬ isNetlocDelim c))
    else ([], u1)
  let (u3, fragment) :=
    match splitOnFirst '#' u2 with
    | (a, some b) => (a, b)
    | (a, none) => (a, [])
  let (path, query) :=
    match splitOnFirst '?' u3 with
    | (a, some b) => (a, b)
    | (a, none) => (a, [])
  ⟨scheme, netloc, path, query, fragment⟩

/-- Schemes for which `urlparse` splits `;params` off the path. -/
def uses_params : List PyStr :=
  [lit "", lit "ftp", lit "hdl", lit "prospero", lit "http", lit "imap",
   lit "https", lit "shttp", lit "rtsp", lit "rtsps", lit "rtspu", lit "sip",
   lit "sips", lit "mms", lit "sftp", lit "tel"]

/-- Schemes that support relative resolution in `urljoin`. -/
def uses_relative : List PyStr :=
  [lit "", lit "ftp", lit "http", lit "gopher", lit "nntp", lit "imap",
   lit "wais", lit "file", lit "https", lit "shttp", lit "mms",
   lit "prospero", lit "rtsp", lit "rtsps", lit "rtspu", lit "sftp",
   lit "svn", lit "svn+ssh", lit "ws", lit "wss"]

/-- Schemes that carry a network location. -/
def uses_netloc : List PyStr :=
  [lit "", lit "ftp", lit "http", lit "gopher", lit "nntp", lit "telnet",
   lit "imap", lit "wais", lit "file", lit "mms", lit "https", lit "shttp",
   lit "snews", lit "prospero", lit "rtsp", lit "rtsps", lit "rtspu",
   lit "rsync", lit "svn", lit "svn+ssh", lit "sftp", lit "nfs", lit "git",
   lit "git+ssh", lit "ws", lit "wss"]

/-- `_splitparams(url)`: split `;params` off the last path segment. -/
def splitparams (u : PyStr) : PyStr × PyStr :=
  if '/' ∈ u then
    match splitOnLast '/' u with
    | some (before, after) =>
      match splitOnFirst ';' after with
      | (a, some b) => (before ++ '/' :: a, b)
      | (_, none) => (u, [])
    | none => (u, [])
  else
    match splitOnFirst ';' u with
    | (a, some b) => (a, b)
    | (_, none) => (u, [])

/-- `urlparse(url, scheme='')`. -/
def urlparsePy (url : PyStr) (defaultScheme : PyStr := []) : ParseResult :=
  let s := urlsplitPy url defaultScheme
  if s.scheme ∈ uses_params ∧ ';' ∈ s.path then
    let pp := splitparams s.path
    ⟨s.scheme, s.netloc, pp.1, pp.2, s.query, s.fragment⟩
  else
    ⟨s.scheme, s.netloc, s.path, [], s.query, s.fragment⟩

/-- `urlunsplit(components)` (CPython 3.11: re-inserts `//` for netloc-bearing
schemes). -/
def urlunsplitPy (r : SplitResult) : PyStr :=
  let url := r.path
  let url :=
    if r.netloc ≠ [] ∨ (r.scheme ≠ [] ∧ r.scheme ∈ uses_netloc ∧ url.take 2 ≠ lit "//") then
      let url := if url ≠ [] ∧ url.take 1 ≠ lit "/" then '/' :: url else url
      '/' :: '/' :: (r.netloc ++ url)
    else url
  let url := if r.scheme ≠ [] then r.scheme ++ ':' :: url else url
  let url := if r.query ≠ [] then url ++ '?' :: r.query else url
  if r.fragment ≠ [] then url ++ '#' :: r.fragment else url

/-- `urlunparse(components)`. -/
def urlunparsePy (p : ParseResult) : PyStr :=
  let u := if p.params ≠ [] then p.path ++ ';' :: p.params else p.path
  urlunsplitPy ⟨p.scheme, p.netloc, u, p.query, p.fragment⟩

/-- The relative-path segment resolution loop of `urljoin`. -/
def resolveSegs (acc : List PyStr) : List PyStr → List PyStr
  | [] => acc
  | seg :: rest =>
    if seg = lit ".." then resolveSegs acc.dropLast rest
    else if seg = lit "." then resolveSegs acc rest
    else resolveSegs (acc ++ [seg]) rest

/-- `segments[1:-1] = filter(None, segments[1:-1])`: drop empty pieces
strictly between the first and last element. -/
def filterMiddle (l : List PyStr) : List PyStr :=
  match l with
  | [] => []
  | [a] => [a]
  | a :: rest =>
    match rest.reverse with
    | [] => [a]
    | last :: midRev => a :: (midRev.reverse.filter (fun x => x ≠ [])) ++ [last]

/-- `urljoin(base, url)`. -/
def urljoinPy (base url : PyStr) : PyStr :=
  if base = [] then url
  else if url = [] then base
  else
    let b := urlparsePy base []
    let r := urlparsePy url b.scheme
    if r.scheme ≠ b.scheme ∨ r.scheme ∉ uses_relative then url
    else if r.scheme ∈ uses_netloc ∧ r.netloc ≠ [] then
      urlunparsePy r
    else
      let netloc := if r.scheme ∈ uses_netloc then b.netloc else r.netloc
      if r.path = [] ∧ r.params = [] then
        urlunparsePy ⟨r.scheme, netloc, b.path, b.params,
          (if r.query = [] then b.query else r.query), r.fragment⟩
      else
        let base_parts := pySplit '/' b.path
        let base_parts :=
          if base_parts.getLast? ≠ some [] then base_parts.dropLast else base_parts
        let segments :=
          if r.path.take 1 = lit "/" then pySplit '/' r.path
          else filterMiddle (base_parts ++ pySplit '/' r.path)
        let rp := resolveSegs [] segments
        let rp :=
          if segments.getLast? = some (lit ".") ∨ segments.getLast? = some (lit "..") then
            rp ++ [[]]
          else rp
        let joined := List.intercalate (lit "/") rp
        let path := if joined = [] then lit "/" else joined
        urlunparsePy ⟨r.scheme, netloc, path, r.params, r.query, r.fragment⟩

/-! ## Crawler URL helpers (`web_crawler.py`) -/

/-- `normalize_url(url)`: drop the fragment and strip a trailing slash
(except when the path is exactly `/`). -/
def normalize_url (url : PyStr) : PyStr :=
  let parsed := urlparsePy url []
  let path := if parsed.path = lit "/" then lit "/" else rstripChar '/' parsed.path
  urlunparsePy ⟨parsed.scheme, parsed.netloc, path, parsed.params, parsed.query, []⟩

/-- `is_same_domain(url, base_domain)`. -/
def is_same_domain (url : PyStr) (base_domain : PyStr) : Bool :=
  let parsed := urlparsePy url []
  parsed.netloc = base_domain ∨ parsed.netloc = []

/-- The static-asset extension denylist of `is_valid_url`. -/
def skip_exts : List PyStr :=
  [lit "jpg", lit "jpeg", lit "png", lit "gif", lit "svg", lit "ico",
   lit "css", lit "js", lit "woff", lit "woff2", lit "ttf", lit "eot",
   lit "mp4", lit "mp3", lit "zip", lit "tar", lit "gz"]

/-- Does `url` hit one of the skip regexes
(`mailto:`, `tel:`, `javascript:`, `#$`, `\.(ext|...)$`, all
case-insensitive)? -/
def hasSkipPattern (url : PyStr) : Bool :=
  ciContains (lit "mailto:") url || ciContains (lit "tel:") url
    || ciContains (lit "javascript:") url
    || url.getLast? = some '#'
    || skip_exts.any (fun e => ciEndsWith ('.' :: e) url)

/-- `is_valid_url(url)`. -/
def is_valid_url (url : PyStr) : Bool :=
  let parsed := urlparsePy url []
  if parsed.scheme ≠ [] ∧ parsed.scheme ≠ lit "http" ∧ parsed.scheme ≠ lit "https" then
    false
  else if hasSkipPattern url then false
  else true

/-- ASCII model of the `\w` regex class (word character). -/
def isWordChar (c : Char) : Bool :=
  ('a' ≤ c ∧ c ≤ 'z') || ('A' ≤ c ∧ c ≤ 'Z') || ('0' ≤ c ∧ c ≤ '9') || c = '_'

/-- `re.sub(r'\.[^.]+$', '', s)`: drop a final dot-extension when present. -/
def dropExtSuffix (s : PyStr) : PyStr :=
  match splitOnLast '.' s with
  | some (before, after) => if after ≠ [] then before else s
  | none => s

/-- `url_to_filename(url, extension)`. The `hashlib.md5(url).hexdigest()`
fallback is an external library call, supplied as `md5hex`. -/
def url_to_filename (md5hex : PyStr → PyStr) (url : PyStr)
    (extension : PyStr) : PyStr :=
  let path := stripChars [ '/' ] (urlparsePy url []).path
  let path := if path = [] then lit "index" else path
  let safe := path.map (fun c => if c = '/' then '_' else c)
  let safe := safe.map (fun c => if isWordChar c || c = '-' || c = '.' then c else '_')
  let safe := stripChars [ '_', '.' ] safe
  let safe := if safe = [] then (md5hex url).take 12 else safe
  if pyEndsWith extension safe then safe
  else dropExtSuffix safe ++ extension

/-! ## HTML model (BeautifulSoup trees) -/

/-- A parsed HTML node: an element with tag name, attributes and children,
or a text node. -/
inductive Node where
  | elem (tag : PyStr) (attrs : List (PyStr × PyStr)) (children : List Node)
  | text (s : PyStr)

/-- Attribute lookup (`tag.get(name)`). -/
def attrOf (n : Node) (name : PyStr) : Option PyStr :=
  match n with
  | .elem _ attrs _ => (attrs.find? (fun a => a.1 = name)).map (fun a => a.2)
  | .text _ => none

/-- Does the node carry the attribute at all (BeautifulSoup `attr=True`)? -/
def hasAttr (n : Node) (name : PyStr) : Bool :=
  (attrOf n name).isSome

mutual
/-- `soup.find_all(tags)`: all elements with a tag in `tags`, in document
(pre-)order, the node itself included when it matches. -/
def findTags (tags : List PyStr) : Node → List Node
  | .text _ => []
  | .elem t a cs =>
    (if t ∈ tags then [Node.elem t a cs] else []) ++ findTagsList tags cs

/-- `find_all` over a list of sibling nodes. -/
def findTagsList (tags : List PyStr) : List Node → List Node
  | [] => []
  | n :: ns => findTags tags n ++ findTagsList tags ns
end

/-- First match of `find(tag)`. -/
def findFirstTag (tag : PyStr) (n : Node) : Option Node :=
  (findTags [tag] n).head?

mutual
/-- `tag.decompose()` applied to every element whose tag is in `tags`. -/
def removeTags (tags : List PyStr) : Node → Node
  | .text s => .text s
  | .elem t a cs => .elem t a (removeTagsList tags cs)

/-- `removeTags` over sibling lists (matching elements are dropped). -/
def removeTagsList (tags : List PyStr) : List Node → List Node
  | [] => []
  | .text s :: ns => .text s :: removeTagsList tags ns
  | .elem t a cs :: ns =>
    if t ∈ tags then removeTagsList tags ns
    else .elem t a (removeTagsList tags cs) :: removeTagsList tags ns
end

mutual
/-- `tag.get_text(strip=True)`: concatenation of the stripped text
descendants. -/
def getTextStripped : Node → PyStr
  | .text s => pyStrip s
  | .elem _ _ cs => getTextStrippedList cs

/-- `get_text(strip=True)` over sibling lists. -/
def getTextStrippedList : List Node → PyStr
  | [] => []
  | n :: ns => getTextStripped n ++ getTextStrippedList ns
end

/-- Ordered-set insertion (Python `set.add` determinised to first-insertion
order). -/
def insertNew (x : PyStr) (xs : List PyStr) : List PyStr :=
  if x ∈ xs then xs else xs ++ [x]

/-- `extract_links(soup, base_url)`: every non-empty stripped `href` of an
anchor, resolved against `base_url`. -/
def extract_links (soup : Node) (base_url : PyStr) : List PyStr :=
  (findTags [lit "a"] soup).foldl
    (fun acc tag =>
      match attrOf tag (lit "href") with
      | some hv =>
        let href := pyStrip hv
        if href = [] then acc else insertNew (urljoinPy base_url href) acc
      | none => acc)
    []

/-- The `src or data` resource of an `<iframe>`/`<embed>`/`<object>` tag:
`tag.get("src", "") or tag.get("data", "")`. -/
def srcOrData (tag : Node) : PyStr :=
  let src := (attrOf tag (lit "src")).getD []
  if src ≠ [] then src else (attrOf tag (lit "data")).getD []

/-- `extract_pdf_links(soup, base_url)`. -/
def extract_pdf_links (soup : Node) (base_url : PyStr) : List PyStr :=
  let s1 := (findTags [lit "a"] soup).foldl
    (fun acc tag =>
      match attrOf tag (lit "href") with
      | some hv =>
        let href := pyStrip hv
        if pyEndsWith (lit ".pdf") (pyLower href) then
          insertNew (urljoinPy base_url href) acc
        else acc
      | none => acc)
    []
  ((findTags [lit "iframe", lit "embed", lit "object"] soup).filter
      (fun t => hasAttr t (lit "src"))).foldl
    (fun acc tag =>
      let src := srcOrData tag
      if src ≠ [] ∧ pyEndsWith (lit ".pdf") (pyLower src) then
        insertNew (urljoinPy base_url src) acc
      else acc)
    s1

/-- `re.sub(r'\n{3,}', '\n\n', s)`: `k` counts pending newlines. -/
def collapseNLAux (k : Nat) : PyStr → PyStr
  | [] => List.replicate (min k 2) '\n'
  | c :: rest =>
    if c = '\n' then collapseNLAux (k + 1) rest
    else List.replicate (min k 2) '\n' ++ c :: collapseNLAux 0 rest

/-- Collapse runs of three or more newlines to exactly two. -/
def collapseNewlines (s : PyStr) : PyStr := collapseNLAux 0 s

/-- The tags `html_to_markdown` decomposes before converting. -/
def chromeTags : List PyStr :=
  [lit "script", lit "style", lit "noscript", lit "nav", lit "footer",
   lit "header", lit "iframe"]

/-- `html_to_markdown(html, url)`.  The third-party `markdownify` renderer is
the external parameter `mdify`; it receives the selected body node. -/
def html_to_markdown (mdify : Node → PyStr) (soup : Node) (url : PyStr) : PyStr :=
  let cleaned := removeTags chromeTags soup
  let title :=
    match findFirstTag (lit "title") cleaned with
    | some t => getTextStripped t
    | none => (urlparsePy url []).path
  let body :=
    match findFirstTag (lit "body") cleaned with
    | some b => b
    | none => cleaned
  let markdown_text := pyStrip (collapseNewlines (mdify body))
  lit "# " ++ title ++ lit "\n\n> Source: " ++ url ++ lit "\n\n" ++ markdown_text

/-! ## The crawl loop (`crawl` in `web_crawler.py`)

The loop is embedded as a fuel-indexed transition function over an explicit
`CrawlState`.  The environment (`World`) supplies the outcome of the
browser fetch (`page.goto` + `page.content()`, already parsed), the outcome
of `download_pdf`'s network/filesystem work (its success path returns the
saved path and the pre-formatted size string, its failure path the error
message string), the `markdownify` renderer and the `md5` hexdigest.  Two
bookkeeping lists that the Python code does not store explicitly are added
to the state so that claims can count events: `fetchCalls` (every URL/depth
actually passed to `page.goto`) and `downloadCalls` (every URL passed to
`download_pdf`, tagged with the `found_on` provenance of the attempt). -/

/-- Outcome of `page.goto(url)` (plus `page.content()` when HTML):
an exception, a `None` response, or a response with content-type, HTTP
status and parsed body. -/
inductive FetchResult where
  | exn (msg : PyStr)
  | noResponse
  | ok (contentType : PyStr) (status : Nat) (soup : Node)

/-- The crawl's external collaborators. -/
structure World where
  fetch : PyStr → FetchResult
  download : PyStr → Except PyStr (PyStr × PyStr)
  mdify : Node → PyStr
  md5hex : PyStr → PyStr

/-- One row of `crawl_log`. -/
structure LogEntry where
  url : PyStr
  type : PyStr
  status : PyStr
  depth : Nat
  title : PyStr
  pdf_links_count : Nat
  found_on : PyStr
  saved_as : PyStr
  size_kb : PyStr
  error : PyStr
deriving Repr, DecidableEq

/-- The crawl configuration derived inside `crawl(...)` from its arguments. -/
structure Config where
  base_domain : PyStr
  max_depth : Option Int
  max_pages : Option Int
  dry_run : Bool
  pdfs_only : Bool
  pdf_folder : Bool
  md_folder : Bool
deriving Repr, DecidableEq

/-- The mutable state of one crawl run. -/
structure CrawlState where
  visited : List PyStr
  queue : List (PyStr × Nat)
  all_pages : List PyStr
  all_pdfs : List PyStr
  downloaded_pdfs : List PyStr
  saved_md_files : List PyStr
  errors : List (PyStr × PyStr)
  crawl_log : List LogEntry
  pages_crawled : Nat
  fetchCalls : List (PyStr × Nat)
  downloadCalls : List (PyStr × PyStr)
deriving Repr, DecidableEq

/-- `if max_pages and pages_crawled >= max_pages:` (Python int truthiness:
`0` and `None` are falsy). -/
def maxPagesHit (mp : Option Int) (pagesCrawled : Nat) : Bool :=
  match mp with
  | none => false
  | some m => m ≠ 0 ∧ (pagesCrawled : Int) ≥ m

/-- `if max_depth is not None and depth > max_depth:`. -/
def depthExceeds (md : Option Int) (depth : Nat) : Bool :=
  match md with
  | none => false
  | some m => (depth : Int) > m

/-- The log entry appended by the `except` handler of the crawl loop. -/
def errorEntry (url : PyStr) (depth : Nat) (msg : PyStr) : LogEntry :=
  ⟨url, lit "page", lit "error", depth, [], 0, [], [], [], msg⟩

/-- Outcome of one `download_pdf` attempt plus the surrounding bookkeeping
(`saved_path`, `size_kb`, `error_msg` of the Python code). -/
structure PdfAttempt where
  saved_as : PyStr
  size_kb : PyStr
  error : PyStr
  newPath : List PyStr
  newError : List (PyStr × PyStr)
  called : Bool

/-- The shared `if not dry_run and pdf_folder: download...` bookkeeping of
both PDF branches. -/
def attemptDownload (cfg : Config) (w : World) (target : PyStr) : PdfAttempt :=
  if ¬ cfg.dry_run ∧ cfg.pdf_folder then
    match w.download target with
    | .ok (p, sz) => ⟨p, sz, [], [p], [], true⟩
    | .error e => ⟨[], [], e, [], [(target, e)], true⟩
  else ⟨[], [], [], [], [], false⟩

/-- The `status` of a pdf log entry:
`"downloaded" if saved_path else ("found" if dry_run else "error")`. -/
def pdfStatus (dryRun : Bool) (saved : PyStr) : PyStr :=
  if saved ≠ [] then lit "downloaded"
  else if dryRun then lit "found" else lit "error"

/-- The pdf-type log entry both PDF branches append. -/
def pdfEntry (cfg : Config) (target : PyStr) (depth : Nat) (foundOn : PyStr)
    (a : PdfAttempt) : LogEntry :=
  ⟨target, lit "pdf", pdfStatus cfg.dry_run a.saved_as, depth, [], 0,
    foundOn, a.saved_as, a.size_kb, a.error⟩

/-- The `for pdf_url in pdf_links:` loop of the HTML branch. -/
def handlePdfLinks (cfg : Config) (w : World) (pageUrl : PyStr) (depth : Nat) :
    List PyStr → CrawlState → CrawlState
  | [], s => s
  | pdf_url :: rest, s =>
    let np := normalize_url pdf_url
    if np ∈ s.all_pdfs then handlePdfLinks cfg w pageUrl depth rest s
    else
      let a := attemptDownload cfg w np
      let s' : CrawlState :=
        { s with
          all_pdfs := s.all_pdfs ++ [np]
          downloaded_pdfs := s.downloaded_pdfs ++ a.newPath
          errors := s.errors ++ a.newError
          downloadCalls := s.downloadCalls ++ (if a.called then [(np, pageUrl)] else [])
          crawl_log := s.crawl_log ++ [pdfEntry cfg np depth pageUrl a] }
      handlePdfLinks cfg w pageUrl depth rest s'

/-- The `for link in links:` loop of the HTML branch. -/
def enqueueLinks (cfg : Config) (depth : Nat) :
    List PyStr → CrawlState → CrawlState
  | [], s => s
  | link :: rest, s =>
    let n := normalize_url link
    if n ∉ s.visited ∧ is_same_domain n cfg.base_domain ∧ is_valid_url n then
      enqueueLinks cfg depth rest { s with queue := s.queue ++ [(n, depth + 1)] }
    else enqueueLinks cfg depth rest s

/-- Processing of one dequeued task after the guards have passed
(`visited.add(url)` onward: the `try:` body plus the `except` handler). -/
def processTask (cfg : Config) (w : World) (s : CrawlState)
    (url : PyStr) (depth : Nat) : CrawlState :=
  let s := { s with
    visited := insertNew url s.visited
    fetchCalls := s.fetchCalls ++ [(url, depth)] }
  match w.fetch url with
  | .exn msg =>
    { s with
      errors := s.errors ++ [(url, msg)]
      crawl_log := s.crawl_log ++ [errorEntry url depth msg] }
  | .noResponse =>
    { s with errors := s.errors ++ [(url, lit "No response")] }
  | .ok ct status soup =>
    let content_type := pyLower ct
    if containsSub (lit "application/pdf") content_type then
      let a := attemptDownload cfg w url
      { s with
        all_pdfs := insertNew url s.all_pdfs
        downloaded_pdfs := s.downloaded_pdfs ++ a.newPath
        errors := s.errors ++ a.newError
        downloadCalls := s.downloadCalls ++ (if a.called then [(url, lit "direct")] else [])
        crawl_log := s.crawl_log ++ [pdfEntry cfg url depth (lit "direct") a] }
    else if ¬ containsSub (lit "text/html") content_type then s
    else if status ≥ 400 then
      let msg := lit "HTTP " ++ Nat.toDigits 10 status
      { s with
        errors := s.errors ++ [(url, msg)]
        crawl_log := s.crawl_log ++ [errorEntry url depth msg] }
    else
      let s := { s with
        pages_crawled := s.pages_crawled + 1
        all_pages := insertNew url s.all_pages }
      let page_title :=
        match findFirstTag (lit "title") soup with
        | some t => getTextStripped t
        | none => []
      let pdf_links := extract_pdf_links soup url
      let s := handlePdfLinks cfg w url depth pdf_links s
      let md_saved_path :=
        if ¬ cfg.dry_run ∧ ¬ cfg.pdfs_only ∧ cfg.md_folder then
          let markdown_content := html_to_markdown w.mdify soup url
          if pyStrip markdown_content ≠ [] then
            url_to_filename w.md5hex url (lit ".md")
          else []
        else []
      let s := { s with
        saved_md_files := s.saved_md_files ++ (if md_saved_path ≠ [] then [md_saved_path] else [])
        crawl_log := s.crawl_log ++
          [⟨url, lit "page", lit "crawled", depth, page_title,
            pdf_links.length, [], md_saved_path, [], []⟩] }
      let links := extract_links soup url
      enqueueLinks cfg depth links s

/-- The `while queue:` loop, fuel-indexed.  One fuel unit is one loop
iteration; with enough fuel the run terminates exactly like the Python
loop (final `queue = []` or the page bound hit). -/
def crawlLoop (cfg : Config) (w : World) : Nat → CrawlState → CrawlState
  | 0, s => s
  | n + 1, s =>
    match s.queue with
    | [] => s
    | (url, depth) :: rest =>
      if maxPagesHit cfg.max_pages s.pages_crawled then s
      else
        let s' := { s with queue := rest }
        if url ∈ s'.visited then crawlLoop cfg w n s'
        else if depthExceeds cfg.max_depth depth then crawlLoop cfg w n s'
        else crawlLoop cfg w n (processTask cfg w s' url depth)

/-- The initial crawl state: the normalized start URL at depth 0. -/
def initState (start_url : PyStr) : CrawlState :=
  ⟨[], [(normalize_url start_url, 0)], [], [], [], [], [], [], 0, [], []⟩

/-- The summary dictionary `crawl` returns. -/
structure CrawlResults where
  pages_found : Nat
  pages_crawled : Nat
  pdfs_found : Nat
  pdfs_downloaded : Nat
  pdf_files : List PyStr
  md_files : List PyStr
  errors : List (PyStr × PyStr)
  crawl_log : List LogEntry
deriving Repr, DecidableEq

/-- The arguments of `crawl(...)` that matter for control flow. -/
structure Args where
  start_url : PyStr
  output_folder : Bool
  max_depth : Option Int
  max_pages : Option Int
  dry_run : Bool
  pdfs_only : Bool
deriving Repr, DecidableEq

/-- Build the `Config` exactly as `crawl` does: `pdf_folder`/`md_folder`
exist only when an output folder is given and the run is not a dry run. -/
def mkConfig (a : Args) : Config :=
  { base_domain := (urlparsePy a.start_url []).netloc
    max_depth := a.max_depth
    max_pages := a.max_pages
    dry_run := a.dry_run
    pdfs_only := a.pdfs_only
    pdf_folder := a.output_folder ∧ ¬ a.dry_run
    md_folder := a.output_folder ∧ ¬ a.dry_run }

/-- `crawl(start_url, ...)`: `None` on a host-less start URL, otherwise the
summary of the (fuel-bounded) run. -/
def crawl (w : World) (a : Args) (fuel : Nat) : Option CrawlResults :=
  let base_domain := (urlparsePy a.start_url []).netloc
  if base_domain = [] then none
  else
    let s := crawlLoop (mkConfig a) w fuel (initState a.start_url)
    some ⟨s.all_pages.length, s.pages_crawled, s.all_pdfs.length,
      s.downloaded_pdfs.length, s.downloaded_pdfs, s.saved_md_files,
      s.errors, s.crawl_log⟩

/-- The exit status `main()` hands the shell: `sys.exit(1)` only when the
run produced results with zero crawled pages; every other path (including
"completed with errors", which only prints a warning) falls off the end of
`main` and exits 0. -/
def mainExitCode (results : Option CrawlResults) : Nat :=
  match results with
  | none => 0
  | some r => if r.pages_crawled = 0 then 1 else 0

/-! ## Event counting -/

/-- Number of `type="pdf"` log entries for a given URL. -/
def pdfLogCount (u : PyStr) (log : List LogEntry) : Nat :=
  (log.filter (fun e => e.type = lit "pdf" ∧ e.url = u)).length

/-- Number of `type="pdf"` log entries for a given URL whose provenance is a
hyperlink discovery (`found_on ≠ "direct"`). -/
def linkPdfLogCount (u : PyStr) (log : List LogEntry) : Nat :=
  (log.filter (fun e => e.type = lit "pdf" ∧ e.found_on ≠ lit "direct" ∧ e.url = u)).length

/-- Number of `download_pdf` invocations for a given URL. -/
def downloadCount (u : PyStr) (calls : List (PyStr × PyStr)) : Nat :=
  (calls.filter (fun c => c.1 = u)).length

/-- Number of `download_pdf` invocations for a given URL coming from the
hyperlink-discovery path. -/
def linkDownloadCount (u : PyStr) (calls : List (PyStr × PyStr)) : Nat :=
  (calls.filter (fun c => c.2 ≠ lit "direct" ∧ c.1 = u)).length

/-- Number of `type="page", status="crawled"` log entries. -/
def crawledPageCount (log : List LogEntry) : Nat :=
  (log.filter (fun e => e.type = lit "page" ∧ e.status = lit "crawled")).length

/-! ## Concrete scenarios for the counterexamples and witnesses -/

/-- A page whose only content is an anchor to `/doc.pdf`. -/
def soupSiteA : Node :=
  .elem (lit "html") []
    [.elem (lit "body") [] [.elem (lit "a") [(lit "href", lit "/doc.pdf")] []]]

/-- Scenario A: `http://a.com` serves HTML linking `/doc.pdf`, which the
server also serves directly with content-type `application/pdf`. -/
def worldA : World :=
  { fetch := fun u =>
      if u = lit "http://a.com" then .ok (lit "text/html") 200 soupSiteA
      else if u = lit "http://a.com/doc.pdf" then
        .ok (lit "application/pdf") 200 (.text [])
      else .noResponse
    download := fun _ => .ok (lit "doc.pdf", lit "1.0")
    mdify := fun _ => lit "body"
    md5hex := fun _ => lit "0123456789abcdef" }

/-- Scenario A arguments: full crawl into an output folder. -/
def argsA : Args := ⟨lit "http://a.com", true, none, none, false, false⟩

/-- The completed scenario-A run (fuel 5 exhausts the frontier). -/
def runA : CrawlState :=
  crawlLoop (mkConfig argsA) worldA 5 (initState (lit "http://a.com"))

/-- Scenario B: every fetch yields `None` (no response). -/
def worldB : World :=
  ⟨fun _ => .noResponse, fun _ => .error (lit "x"), fun _ => [], fun _ => []⟩

/-- Scenario B arguments: dry run of `http://b.com`. -/
def argsB : Args := ⟨lit "http://b.com", false, none, none, true, false⟩

/-- The completed scenario-B run. -/
def runB : CrawlState :=
  crawlLoop (mkConfig argsB) worldB 2 (initState (lit "http://b.com"))

/-- A page with no links. -/
def soupSiteC : Node :=
  .elem (lit "html") [] [.elem (lit "body") [] [.text (lit "hi")]]

/-- Scenario C: one page, every URL serves it. -/
def worldC : World :=
  ⟨fun _ => .ok (lit "text/html") 200 soupSiteC,
   fun _ => .error (lit "x"), fun _ => lit "t", fun _ => []⟩

/-- Scenario C arguments: `max_pages = 0`. -/
def argsC : Args := ⟨lit "http://c.com", true, none, some 0, false, false⟩

/-- The completed scenario-C run. -/
def runC : CrawlState :=
  crawlLoop (mkConfig argsC) worldC 3 (initState (lit "http://c.com"))

/-- A page whose only link is the href `http:foo` (a scheme different from
the page's `https`, so `urljoin` leaves it untouched). -/
def soupSiteE : Node :=
  .elem (lit "html") []
    [.elem (lit "body") [] [.elem (lit "a") [(lit "href", lit "http:foo")] []]]

/-- Scenario E world. -/
def worldE : World :=
  ⟨fun _ => .ok (lit "text/html") 200 soupSiteE,
   fun _ => .error (lit "x"), fun _ => lit "t", fun _ => []⟩

/-- Scenario E arguments: dry-run crawl of `https://a.com`. -/
def argsE : Args := ⟨lit "https://a.com", false, none, none, true, false⟩

/-- Scenario E after processing the start page. -/
def runE : CrawlState :=
  crawlLoop (mkConfig argsE) worldE 1 (initState (lit "https://a.com"))

/-- A page whose only link is `/err`. -/
def soupSiteF : Node :=
  .elem (lit "html") []
    [.elem (lit "body") [] [.elem (lit "a") [(lit "href", lit "/err")] []]]

/-- Scenario F: the start page crawls fine, its one link raises. -/
def worldF : World :=
  { fetch := fun u =>
      if u = lit "http://f.com" then .ok (lit "text/html") 200 soupSiteF
      else .exn (lit "boom")
    download := fun _ => .error (lit "x")
    mdify := fun _ => lit "t"
    md5hex := fun _ => [] }

/-- Scenario F arguments: full crawl. -/
def argsF : Args := ⟨lit "http://f.com", true, none, none, false, false⟩

/-- Scenario D arguments: like scenario A but with `max_depth = 0`. -/
def argsD : Args := ⟨lit "http://a.com", true, some 0, none, false, false⟩

/-- The completed scenario-D run (the `/doc.pdf` link is enqueued at depth 1
but never fetched). -/
def runD : CrawlState :=
  crawlLoop (mkConfig argsD) worldA 3 (initState (lit "http://a.com"))

/-- A document whose only PDF reference is an `<object>` carrying only a
`data` attribute. -/
def soupSiteG : Node :=
  .elem (lit "html") []
    [.elem (lit "body") [] [.elem (lit "object") [(lit "data", lit "doc.pdf")] []]]

/-- A document whose only PDF reference is an anchor to `doc.pdf?x=1`
(a PDF path suffix followed by a query string). -/
def soupSiteH : Node :=
  .elem (lit "html") []
    [.elem (lit "body") [] [.elem (lit "a") [(lit "href", lit "doc.pdf?x=1")] []]]

/-- C8's reading of `extract_pdf_links`, modelled from the claim's words:
(a) every anchor whose resolved target has a case-insensitive **path**
suffix `.pdf`, and (b) every `<iframe>`/`<embed>`/`<object>` whose
referenced resource — its `src` attribute, or its `data` attribute when no
`src` is given — has a case-insensitive `.pdf` suffix. -/
def extract_pdf_links_claimed (soup : Node) (base_url : PyStr) : List PyStr :=
  let fromAnchors := (findTags [lit "a"] soup).foldl
    (fun acc tag =>
      match attrOf tag (lit "href") with
      | some hv =>
        let target := urljoinPy base_url (pyStrip hv)
        if pyEndsWith (lit ".pdf") (pyLower (urlparsePy target []).path) then
          insertNew target acc
        else acc
      | none => acc)
    []
  (findTags [lit "iframe", lit "embed", lit "object"] soup).foldl
    (fun acc tag =>
      let res := match attrOf tag (lit "src") with
        | some v => v
        | none => (attrOf tag (lit "data")).getD []
      if res ≠ [] ∧ pyEndsWith (lit ".pdf") (pyLower res) then
        insertNew (urljoinPy base_url res) acc
      else acc)
    fromAnchors

/-- The amended reading of `extract_pdf_links`, written independently of the
implementation: anchors are selected by a case-insensitive `.pdf` suffix of
their full (stripped) `href` string; embedded viewers are selected only
among `<iframe>`/`<embed>`/`<object>` elements that carry a `src`
attribute, taking the `data` attribute only as fallback for an empty
`src`. -/
def extract_pdf_links_spec (soup : Node) (base_url : PyStr) : List PyStr :=
  let anchorTargets := (findTags [lit "a"] soup).filterMap
    (fun tag =>
      (attrOf tag (lit "href")).bind (fun hv =>
        let href := pyStrip hv
        if pyEndsWith (lit ".pdf") (pyLower href) then
          some (urljoinPy base_url href)
        else none))
  let embedTargets := (findTags [lit "iframe", lit "embed", lit "object"] soup).filterMap
    (fun tag =>
      if hasAttr tag (lit "src") then
        let src := srcOrData tag
        if src ≠ [] ∧ pyEndsWith (lit ".pdf") (pyLower src) then
          some (urljoinPy base_url src)
        else none
      else none)
  (anchorTargets ++ embedTargets).foldl (fun a x => insertNew x a) []

/-- The dedup invariant maintained for hyperlink-discovered PDFs: per URL at
most one non-direct pdf log entry and one non-direct download, and any such
event implies membership in `all_pdfs`. -/
def PdfInv (s : CrawlState) : Prop :=
  ∀ p : PyStr,
    (linkPdfLogCount p s.crawl_log ≤ 1 ∧ linkDownloadCount p s.downloadCalls ≤ 1) ∧
    ((1 ≤ linkPdfLogCount p s.crawl_log ∨ 1 ≤ linkDownloadCount p s.downloadCalls) →
      p ∈ s.all_pdfs)

/-! ## Counterexamples to the claims that fail on the code -/

/-- C1: refuted as stated.  In the completed scenario-A run the absolute PDF
URL `http://a.com/doc.pdf` is discovered twice — once as a hyperlink on the
crawled start page and once by fetching it directly (content-type
`application/pdf`, the anchor also being enqueued as a page task because
`.pdf` is not in the static-asset denylist) — and the run performs two
downloads of it and appends two pdf-type log entries for it, because the
direct-fetch branch never consults `all_pdfs` before downloading. -/
theorem c1_pdf_dedup_counterexample :
    pdfLogCount (lit "http://a.com/doc.pdf") runA.crawl_log = 2 ∧
    downloadCount (lit "http://a.com/doc.pdf") runA.downloadCalls = 2 ∧
    (runA.crawl_log.filter (fun e => e.found_on = lit "direct")).length = 1 ∧
    runA.queue = [] := by decide

/-- C2: refuted as stated.  In scenario B the fetch of the start URL yields
no response: the failure is recorded in `errors` and the loop continues,
but no log entry at all (in particular none with status `"error"`) is
appended for that URL. -/
theorem c2_error_logging_counterexample :
    runB.errors = [(lit "http://b.com", lit "No response")] ∧
    runB.crawl_log = [] := by decide

/-- C3: refuted as stated.  With the caller passing `max_pages = 0` the
Python truthiness test `if max_pages and ...` disables the bound, and the
scenario-C run crawls one page: one `"crawled"` entry exceeds the
configured bound of zero. -/
theorem c3_page_bound_counterexample :
    argsC.max_pages = some 0 ∧
    crawledPageCount runC.crawl_log = 1 := by decide

/-- C5: refuted as stated.  In scenario E the crawled page (host `a.com`,
scheme `https`) carries the anchor `http:foo`; `urljoin` keeps it verbatim
(different scheme), it normalizes to the empty-host URL
`http:///foo`, passes `is_same_domain` (which accepts an empty host) and
`is_valid_url`, and is enqueued even though its host component is empty and
differs from the start URL's host `a.com`. -/
theorem c5_domain_invariant_counterexample :
    (mkConfig argsE).base_domain = lit "a.com" ∧
    runE.queue = [(lit "http:///foo", 1)] ∧
    (urlparsePy (lit "http:///foo") []).netloc = [] := by decide

/-- C7: refuted as stated.  `is_valid_url` anchors its extension denylist
regex at the end of the whole URL string, so a denylisted path suffix
followed by a query string is accepted; and only URLs ending in `#` are
treated as in-page anchors, so the pure fragment `#section` is accepted
too. -/
theorem c7_is_valid_url_counterexample :
    (urlparsePy (lit "http://example.com/img.png?v=2") []).path =
      lit "/img.png" ∧
    is_valid_url (lit "http://example.com/img.png?v=2") = true ∧
    is_valid_url (lit "#section") = true := by decide

/-- C9: refuted as stated.  The completed scenario-F run crawls one page and
records one error, yet `main` only prints a warning for errors and exits
with status 0; only the zero-pages case exits nonzero. -/
theorem c9_exit_code_counterexample :
    (crawl worldF argsF 5).map (fun r => (r.pages_crawled, r.errors.length)) =
      some (1, 1) ∧
    mainExitCode (crawl worldF argsF 5) = 0 := by decide

/-! ## Frame lemmas for the loop bodies -/

theorem insertNew_mem {x y : PyStr} {xs : List PyStr} :
    x ∈ insertNew y xs ↔ x ∈ xs ∨ x = y := by
  unfold insertNew
  split
  · next h => simp only [iff_self_or]; rintro rfl; exact h
  · simp [List.mem_append]

theorem mem_insertNew_self (y : PyStr) (xs : List PyStr) : y ∈ insertNew y xs := by
  rw [insertNew_mem]; right; rfl

theorem insertNew_subset {y : PyStr} {xs : List PyStr} : xs ⊆ insertNew y xs := by
  intro a ha; rw [insertNew_mem]; left; exact ha

theorem hpl_queue (cfg : Config) (w : World) (p : PyStr) (d : Nat) :
    ∀ (l : List PyStr) (s : CrawlState),
      (handlePdfLinks cfg w p d l s).queue = s.queue := by
  intro l
  induction l with
  | nil => intro s; rfl
  | cons x xs ih =>
    intro s
    simp only [handlePdfLinks]
    split
    · exact ih s
    · exact ih _

theorem hpl_visited (cfg : Config) (w : World) (p : PyStr) (d : Nat) :
    ∀ (l : List PyStr) (s : CrawlState),
      (handlePdfLinks cfg w p d l s).visited = s.visited := by
  intro l
  induction l with
  | nil => intro s; rfl
  | cons x xs ih =>
    intro s
    simp only [handlePdfLinks]
    split
    · exact ih s
    · exact ih _

theorem hpl_pages_crawled (cfg : Config) (w : World) (p : PyStr) (d : Nat) :
    ∀ (l : List PyStr) (s : CrawlState),
      (handlePdfLinks cfg w p d l s).pages_crawled = s.pages_crawled := by
  intro l
  induction l with
  | nil => intro s; rfl
  | cons x xs ih =>
    intro s
    simp only [handlePdfLinks]
    split
    · exact ih s
    · exact ih _

theorem hpl_fetchCalls (cfg : Config) (w : World) (p : PyStr) (d : Nat) :
    ∀ (l : List PyStr) (s : CrawlState),
      (handlePdfLinks cfg w p d l s).fetchCalls = s.fetchCalls := by
  intro l
  induction l with
  | nil => intro s; rfl
  | cons x xs ih =>
    intro s
    simp only [handlePdfLinks]
    split
    · exact ih s
    · exact ih _

theorem crawledPageCount_append (a b : List LogEntry) :
    crawledPageCount (a ++ b) = crawledPageCount a + crawledPageCount b := by
  simp [crawledPageCount, List.filter_append]

theorem hpl_crawledCount (cfg : Config) (w : World) (p : PyStr) (d : Nat) :
    ∀ (l : List PyStr) (s : CrawlState),
      crawledPageCount (handlePdfLinks cfg w p d l s).crawl_log =
        crawledPageCount s.crawl_log := by
  intro l
  induction l with
  | nil => intro s; rfl
  | cons x xs ih =>
    intro s
    simp only [handlePdfLinks]
    split
    · exact ih s
    · rw [ih]
      show crawledPageCount (s.crawl_log ++ [_]) = _
      rw [crawledPageCount_append]
      rfl

theorem enq_log (cfg : Config) (d : Nat) :
    ∀ (l : List PyStr) (s : CrawlState),
      (enqueueLinks cfg d l s).crawl_log = s.crawl_log := by
  intro l
  induction l with
  | nil => intro s; rfl
  | cons x xs ih =>
    intro s
    simp only [enqueueLinks]
    split
    · exact ih _
    · exact ih s

theorem enq_pages_crawled (cfg : Config) (d : Nat) :
    ∀ (l : List PyStr) (s : CrawlState),
      (enqueueLinks cfg d l s).pages_crawled = s.pages_crawled := by
  intro l
  induction l with
  | nil => intro s; rfl
  | cons x xs ih =>
    intro s
    simp only [enqueueLinks]
    split
    · exact ih _
    · exact ih s

theorem enq_fetchCalls (cfg : Config) (d : Nat) :
    ∀ (l : List PyStr) (s : CrawlState),
      (enqueueLinks cfg d l s).fetchCalls = s.fetchCalls := by
  intro l
  induction l with
  | nil => intro s; rfl
  | cons x xs ih =>
    intro s
    simp only [enqueueLinks]
    split
    · exact ih _
    · exact ih s

theorem enq_queue_mem (cfg : Config) (d : Nat) :
    ∀ (l : List PyStr) (s : CrawlState) (t : PyStr × Nat),
      t ∈ (enqueueLinks cfg d l s).queue →
      t ∈ s.queue ∨
        (t.2 = d + 1 ∧ is_same_domain t.1 cfg.base_domain = true) := by
  intro l
  induction l with
  | nil => intro s t ht; exact Or.inl ht
  | cons x xs ih =>
    intro s t ht
    simp only [enqueueLinks] at ht
    split at ht
    · next hcond =>
      rcases ih _ t ht with h | h
      · rcases List.mem_append.mp h with h' | h'
        · exact Or.inl h'
        · right
          rcases List.mem_singleton.mp h' with rfl
          exact ⟨rfl, hcond.2.1⟩
      · exact Or.inr h
    · exact ih s t ht

theorem enq_downloadCalls (cfg : Config) (d : Nat) :
    ∀ (l : List PyStr) (s : CrawlState),
      (enqueueLinks cfg d l s).downloadCalls = s.downloadCalls := by
  intro l
  induction l with
  | nil => intro s; rfl
  | cons x xs ih =>
    intro s
    simp only [enqueueLinks]
    split
    · exact ih _
    · exact ih s

theorem enq_all_pdfs (cfg : Config) (d : Nat) :
    ∀ (l : List PyStr) (s : CrawlState),
      (enqueueLinks cfg d l s).all_pdfs = s.all_pdfs := by
  intro l
  induction l with
  | nil => intro s; rfl
  | cons x xs ih =>
    intro s
    simp only [enqueueLinks]
    split
    · exact ih _
    · exact ih s

/-! ## `processTask` branch lemmas -/

theorem pt_fetchCalls (cfg : Config) (w : World) (s : CrawlState)
    (url : PyStr) (depth : Nat) :
    (processTask cfg w s url depth).fetchCalls = s.fetchCalls ++ [(url, depth)] := by
  cases hf : w.fetch url with
  | exn msg => simp only [processTask, hf]
  | noResponse => simp only [processTask, hf]
  | ok ct status soup =>
    simp only [processTask, hf]
    split
    · rfl
    · split
      · rfl
      · split
        · rfl
        · simp only [enq_fetchCalls, hpl_fetchCalls]

theorem pt_queue_mem (cfg : Config) (w : World) (s : CrawlState)
    (url : PyStr) (depth : Nat) :
    ∀ t ∈ (processTask cfg w s url depth).queue,
      t ∈ s.queue ∨
        (t.2 = depth + 1 ∧ is_same_domain t.1 cfg.base_domain = true) := by
  intro t ht
  cases hf : w.fetch url with
  | exn msg => simp only [processTask, hf] at ht; exact Or.inl ht
  | noResponse => simp only [processTask, hf] at ht; exact Or.inl ht
  | ok ct status soup =>
    simp only [processTask, hf] at ht
    split at ht
    · exact Or.inl ht
    · split at ht
      · exact Or.inl ht
      · split at ht
        · exact Or.inl ht
        · rcases enq_queue_mem _ _ _ _ _ ht with h | h
          · left
            rw [hpl_queue] at h
            exact h
          · exact Or.inr h

theorem pt_pages_le (cfg : Config) (w : World) (s : CrawlState)
    (url : PyStr) (depth : Nat) :
    (processTask cfg w s url depth).pages_crawled ≤ s.pages_crawled + 1 := by
  cases hf : w.fetch url with
  | exn msg => simp only [processTask, hf]; omega
  | noResponse => simp only [processTask, hf]; omega
  | ok ct status soup =>
    simp only [processTask, hf]
    split
    · show s.pages_crawled ≤ s.pages_crawled + 1; omega
    · split
      · show s.pages_crawled ≤ s.pages_crawled + 1; omega
      · split
        · show s.pages_crawled ≤ s.pages_crawled + 1; omega
        · simp only [enq_pages_crawled, hpl_pages_crawled]
          omega

theorem pt_crawledCount (cfg : Config) (w : World) (s : CrawlState)
    (url : PyStr) (depth : Nat)
    (h : crawledPageCount s.crawl_log = s.pages_crawled) :
    crawledPageCount (processTask cfg w s url depth).crawl_log =
      (processTask cfg w s url depth).pages_crawled := by
  cases hf : w.fetch url with
  | exn msg =>
    simp only [processTask, hf]
    show crawledPageCount (s.crawl_log ++ [_]) = s.pages_crawled
    rw [crawledPageCount_append, h]
    rfl
  | noResponse => simp only [processTask, hf]; exact h
  | ok ct status soup =>
    simp only [processTask, hf]
    split
    · show crawledPageCount (s.crawl_log ++ [_]) = s.pages_crawled
      rw [crawledPageCount_append, h]
      rfl
    · split
      · exact h
      · split
        · show crawledPageCount (s.crawl_log ++ [_]) = s.pages_crawled
          rw [crawledPageCount_append, h]
          rfl
        · simp only [enq_log, enq_pages_crawled]
          show crawledPageCount ((handlePdfLinks _ _ _ _ _ _).crawl_log ++ [_]) = _
          rw [crawledPageCount_append, hpl_crawledCount, hpl_pages_crawled]
          show crawledPageCount s.crawl_log + 1 = s.pages_crawled + 1
          rw [h]

/-! ## Loop invariants -/

theorem loop_crawled_bound (cfg : Config) (w : World) (m : Int)
    (hm : cfg.max_pages = some m) (hm0 : m ≠ 0) :
    ∀ (n : Nat) (s : CrawlState),
      crawledPageCount s.crawl_log = s.pages_crawled →
      (s.pages_crawled : Int) ≤ m →
      crawledPageCount (crawlLoop cfg w n s).crawl_log =
          (crawlLoop cfg w n s).pages_crawled ∧
        ((crawlLoop cfg w n s).pages_crawled : Int) ≤ m := by
  intro n
  induction n with
  | zero => intro s h1 h2; exact ⟨h1, h2⟩
  | succ k ih =>
    intro s h1 h2
    rcases hq : s.queue with _ | ⟨⟨url, depth⟩, rest⟩
    · simp only [crawlLoop, hq]; exact ⟨h1, h2⟩
    · simp only [crawlLoop, hq]
      split
      · exact ⟨h1, h2⟩
      · next hhit =>
        split
        · exact ih _ h1 h2
        · split
          · exact ih _ h1 h2
          · have hlt : (s.pages_crawled : Int) < m := by
              rw [hm] at hhit
              have hnot : ¬ ((s.pages_crawled : Int) ≥ m) := fun hge =>
                hhit (by simp only [maxPagesHit, decide_eq_true_eq]; exact ⟨hm0, hge⟩)
              omega
            refine ih _ (pt_crawledCount cfg w _ url depth h1) ?_
            have hle := pt_pages_le cfg w { s with queue := rest } url depth
            have hred : ({ s with queue := rest } : CrawlState).pages_crawled
                = s.pages_crawled := rfl
            rw [hred] at hle
            omega

theorem loop_fetch_depth (cfg : Config) (w : World) (d : Int)
    (hd : cfg.max_depth = some d) :
    ∀ (n : Nat) (s : CrawlState),
      (∀ c ∈ s.fetchCalls, (c.2 : Int) ≤ d) →
      ∀ c ∈ (crawlLoop cfg w n s).fetchCalls, (c.2 : Int) ≤ d := by
  intro n
  induction n with
  | zero => intro s h; exact h
  | succ k ih =>
    intro s h
    rcases hq : s.queue with _ | ⟨⟨url, depth⟩, rest⟩
    · simp only [crawlLoop, hq]; exact h
    · simp only [crawlLoop, hq]
      split
      · exact h
      · split
        · exact ih _ h
        · split
          · exact ih _ h
          · next hdep =>
            refine ih _ ?_
            intro c hc
            rw [pt_fetchCalls] at hc
            rcases List.mem_append.mp hc with h' | h'
            · exact h c h'
            · rcases List.mem_singleton.mp h' with rfl
              rw [hd] at hdep
              simp only [depthExceeds] at hdep
              simpa using hdep

theorem loop_queue_domain (cfg : Config) (w : World) :
    ∀ (n : Nat) (s : CrawlState),
      (∀ t ∈ s.queue,
        (urlparsePy t.1 []).netloc = cfg.base_domain ∨ (urlparsePy t.1 []).netloc = []) →
      ∀ t ∈ (crawlLoop cfg w n s).queue,
        (urlparsePy t.1 []).netloc = cfg.base_domain ∨ (urlparsePy t.1 []).netloc = [] := by
  intro n
  induction n with
  | zero => intro s h; exact h
  | succ k ih =>
    intro s h
    rcases hq : s.queue with _ | ⟨⟨url, depth⟩, rest⟩
    · simp only [crawlLoop, hq]
      intro t ht
      exact h t (by rw [hq]; exact ht)
    · have hrest : ∀ t ∈ rest,
          (urlparsePy t.1 []).netloc = cfg.base_domain ∨ (urlparsePy t.1 []).netloc = [] := by
        intro t ht
        exact h t (by rw [hq]; exact List.mem_cons_of_mem _ ht)
      simp only [crawlLoop, hq]
      split
      · exact h
      · split
        · exact ih _ hrest
        · split
          · exact ih _ hrest
          · refine ih _ ?_
            intro t ht
            rcases pt_queue_mem cfg w _ url depth t ht with h' | h'
            · exact hrest t h'
            · have := h'.2
              simpa [is_same_domain] using this

/-! ## Amended claim theorems (C2, C3, C4, C5, C9) -/

/-- C2, amended: an exception during fetch/processing is caught, appends
exactly one `status="error"` log entry for the URL, and the loop continues
with the remaining frontier; but a fetch that yields **no response**
(`response is None`) only records the `(url, "No response")` pair in the
error list and appends **no** log entry before continuing. -/
theorem c2_error_logging (cfg : Config) (w : World) (s : CrawlState)
    (url : PyStr) (depth : Nat) :
    (∀ msg, w.fetch url = .exn msg →
      processTask cfg w s url depth =
        { s with
          visited := insertNew url s.visited
          fetchCalls := s.fetchCalls ++ [(url, depth)]
          errors := s.errors ++ [(url, msg)]
          crawl_log := s.crawl_log ++ [errorEntry url depth msg] }) ∧
    (w.fetch url = .noResponse →
      processTask cfg w s url depth =
        { s with
          visited := insertNew url s.visited
          fetchCalls := s.fetchCalls ++ [(url, depth)]
          errors := s.errors ++ [(url, lit "No response")] }) ∧
    (∀ rest n, s.queue = (url, depth) :: rest →
      maxPagesHit cfg.max_pages s.pages_crawled = false →
      url ∉ s.visited →
      depthExceeds cfg.max_depth depth = false →
      crawlLoop cfg w (n + 1) s =
        crawlLoop cfg w n (processTask cfg w { s with queue := rest } url depth)) := by
  refine ⟨?_, ?_, ?_⟩
  · intro msg h
    simp only [processTask, h]
  · intro h
    simp only [processTask, h]
  · intro rest n hq hhit hvis hdep
    simp only [crawlLoop, hq, hhit, hdep]
    simp [hvis]

/-- C3, amended: for every **positive** configured max page count the number
of `type="page", status="crawled"` log entries never exceeds it; passing
`0` (falsy in Python) disables the bound entirely, as the counterexample
shows. -/
theorem c3_page_bound (w : World) (a : Args) (fuel : Nat) (m : Int)
    (r : CrawlResults) (hm : a.max_pages = some m) (hpos : 0 < m)
    (hr : crawl w a fuel = some r) :
    (crawledPageCount r.crawl_log : Int) ≤ m := by
  have hma : (mkConfig a).max_pages = some m := by
    simp [mkConfig, hm]
  have hloop := loop_crawled_bound (mkConfig a) w m hma (by omega) fuel
    (initState a.start_url) rfl (by show ((0 : Nat) : Int) ≤ m; omega)
  have key : r.crawl_log =
      (crawlLoop (mkConfig a) w fuel (initState a.start_url)).crawl_log := by
    unfold crawl at hr
    by_cases hb : (urlparsePy a.start_url []).netloc = []
    · simp [hb] at hr
    · simp [hb] at hr
      rw [← hr]
  rw [key, hloop.1]
  exact hloop.2

/-- C4, confirmed: every task enqueued during HTML handling carries the
discovering page's depth plus one, and when a max depth is configured no
task whose depth exceeds it is ever fetched (passed to `page.goto`). -/
theorem c4_depth_invariant (cfg : Config) (w : World) (s : CrawlState)
    (url : PyStr) (depth : Nat) (a : Args) (w2 : World) (fuel : Nat) (d : Int)
    (hd : a.max_depth = some d) :
    (∀ t ∈ (processTask cfg w s url depth).queue, t ∈ s.queue ∨ t.2 = depth + 1) ∧
    (∀ c ∈ (crawlLoop (mkConfig a) w2 fuel (initState a.start_url)).fetchCalls,
      (c.2 : Int) ≤ d) := by
  constructor
  · intro t ht
    rcases pt_queue_mem cfg w s url depth t ht with h | h
    · exact Or.inl h
    · exact Or.inr h.1
  · refine loop_fetch_depth (mkConfig a) w2 d (by simp [mkConfig, hd]) fuel
      (initState a.start_url) ?_
    intro c hc
    simp [initState] at hc

/-- C5, amended: every child task enqueued from a crawled page has a
normalized URL whose host either equals the starting URL's host **or is
empty** — `is_same_domain` deliberately accepts host-relative (empty-host)
URLs, and the counterexample shows an empty-host URL really is enqueued. -/
theorem c5_domain_invariant (cfg : Config) (w : World) (fuel : Nat)
    (s : CrawlState)
    (h : ∀ t ∈ s.queue,
      (urlparsePy t.1 []).netloc = cfg.base_domain ∨ (urlparsePy t.1 []).netloc = []) :
    ∀ t ∈ (crawlLoop cfg w fuel s).queue,
      (urlparsePy t.1 []).netloc = cfg.base_domain ∨ (urlparsePy t.1 []).netloc = [] :=
  loop_queue_domain cfg w fuel s h

/-- C9, amended: a completed run with zero crawled pages exits with status
1; any other completed run — including one that finished with recorded
errors, for which `main` only prints a warning — exits with status 0. -/
theorem c9_exit_code (w : World) (a : Args) (fuel : Nat) (r : CrawlResults)
    (hr : crawl w a fuel = some r) :
    (r.pages_crawled = 0 → mainExitCode (crawl w a fuel) = 1) ∧
    (0 < r.pages_crawled → mainExitCode (crawl w a fuel) = 0) ∧
    (0 < r.pages_crawled → r.errors ≠ [] → mainExitCode (crawl w a fuel) = 0) := by
  rw [hr]
  refine ⟨fun h0 => ?_, fun hp => ?_, fun hp _ => ?_⟩
  · simp [mainExitCode, h0]
  · simp [mainExitCode]; omega
  · simp [mainExitCode]; omega

/-- C7, amended: `is_valid_url` rejects every URL with a non-HTTP(S)
scheme, every URL that ends in `#` (the only in-page anchors its `#$`
pattern matches), and every URL whose **whole string** ends
case-insensitively in a denylisted extension; a query string after a
denylisted path suffix defeats the filter and `#section`-style anchors are
accepted, as the counterexample shows. -/
theorem c7_is_valid_url (url : PyStr) :
    ((urlparsePy url []).scheme ≠ [] ∧ (urlparsePy url []).scheme ≠ lit "http" ∧
        (urlparsePy url []).scheme ≠ lit "https" →
      is_valid_url url = false) ∧
    (url.getLast? = some '#' → is_valid_url url = false) ∧
    (∀ e ∈ skip_exts, ciEndsWith ('.' :: e) url = true → is_valid_url url = false) := by
  refine ⟨fun h => ?_, fun h => ?_, fun e he hci => ?_⟩
  · simp only [is_valid_url]
    rw [if_pos h]
  · simp only [is_valid_url]
    split
    · rfl
    · simp [hasSkipPattern, h]
  · simp only [is_valid_url]
    split
    · rfl
    · have hsp : hasSkipPattern url = true := by
        simp only [hasSkipPattern, Bool.or_eq_true, List.any_eq_true]
        exact Or.inr ⟨e, he, hci⟩
      simp [hsp]

/-- Witness for C7: the denylisted-extension clause really fires. -/
theorem c7_is_valid_url_witness :
    is_valid_url (lit "http://a.com/x.png") = false :=
  (c7_is_valid_url (lit "http://a.com/x.png")).2.2 (lit "png")
    (by decide) (by decide)

/-- Witness for C2: in scenario F the fetch of `http://f.com/err` raises,
exactly one error entry is appended, and the loop-continuation equation
holds at the start state. -/
theorem c2_error_logging_witness :
    (processTask (mkConfig argsF) worldF (initState (lit "http://f.com"))
        (lit "http://f.com/err") 1 =
      { initState (lit "http://f.com") with
        visited := insertNew (lit "http://f.com/err")
          (initState (lit "http://f.com")).visited
        fetchCalls := (initState (lit "http://f.com")).fetchCalls ++
          [(lit "http://f.com/err", 1)]
        errors := (initState (lit "http://f.com")).errors ++
          [(lit "http://f.com/err", lit "boom")]
        crawl_log := (initState (lit "http://f.com")).crawl_log ++
          [errorEntry (lit "http://f.com/err") 1 (lit "boom")] }) ∧
    (crawlLoop (mkConfig argsF) worldF 1 (initState (lit "http://f.com")) =
      crawlLoop (mkConfig argsF) worldF 0
        (processTask (mkConfig argsF) worldF
          { initState (lit "http://f.com") with queue := [] }
          (lit "http://f.com") 0)) :=
  ⟨(c2_error_logging (mkConfig argsF) worldF (initState (lit "http://f.com"))
      (lit "http://f.com/err") 1).1 (lit "boom") rfl,
   (c2_error_logging (mkConfig argsF) worldF (initState (lit "http://f.com"))
      (lit "http://f.com") 0).2.2 [] 0 rfl rfl (by decide) rfl⟩

/-- Witness for C3: with `max_pages = 1` the completed scenario-C run keeps
its crawled-page count within the bound. -/
theorem c3_page_bound_witness :
    (crawledPageCount
      (crawlLoop (mkConfig ⟨lit "http://c.com", true, none, some 1, false, false⟩)
        worldC 3 (initState (lit "http://c.com"))).crawl_log : Int) ≤ 1 :=
  c3_page_bound worldC ⟨lit "http://c.com", true, none, some 1, false, false⟩
    3 1 _ rfl (by decide) rfl

/-- Witness for C4: scenario D (`max_depth = 0`) never fetches the depth-1
PDF link, and the child-depth equation holds on the scenario-A start
page. -/
theorem c4_depth_invariant_witness :
    (∀ t ∈ (processTask (mkConfig argsA) worldA (initState (lit "http://a.com"))
        (lit "http://a.com") 0).queue,
      t ∈ (initState (lit "http://a.com")).queue ∨ t.2 = 0 + 1) ∧
    (∀ c ∈ (crawlLoop (mkConfig argsD) worldA 3
        (initState (lit "http://a.com"))).fetchCalls,
      (c.2 : Int) ≤ 0) :=
  c4_depth_invariant (mkConfig argsA) worldA (initState (lit "http://a.com"))
    (lit "http://a.com") 0 argsD worldA 3 0 rfl

/-- Witness for C5: the one task scenario E enqueues from the start page,
`http:///foo` at depth 1, has a host equal to `a.com` or empty. -/
theorem c5_domain_invariant_witness :
    (urlparsePy (lit "http:///foo") []).netloc = (mkConfig argsE).base_domain ∨
      (urlparsePy (lit "http:///foo") []).netloc = [] :=
  c5_domain_invariant (mkConfig argsE) worldE 1 (initState (lit "https://a.com"))
    (by decide) (lit "http:///foo", 1) (by decide)

/-- Witness for C9: the completed scenario-F run (one page, one error)
satisfies the amended exit-code characterisation. -/
theorem c9_exit_code_witness :
    ((crawlLoop (mkConfig argsF) worldF 5 (initState (lit "http://f.com"))).pages_crawled = 0 →
      mainExitCode (crawl worldF argsF 5) = 1) ∧
    (0 < (crawlLoop (mkConfig argsF) worldF 5 (initState (lit "http://f.com"))).pages_crawled →
      mainExitCode (crawl worldF argsF 5) = 0) ∧
    (0 < (crawlLoop (mkConfig argsF) worldF 5 (initState (lit "http://f.com"))).pages_crawled →
      (crawlLoop (mkConfig argsF) worldF 5 (initState (lit "http://f.com"))).errors ≠ [] →
      mainExitCode (crawl worldF argsF 5) = 0) :=
  c9_exit_code worldF argsF 5 _ rfl

/-! ## C10: the converted Markdown is never empty -/

theorem pyStrip_hash_cons_ne_nil (l : PyStr) : pyStrip ('#' :: l) ≠ [] := by
  unfold pyStrip
  rw [List.dropWhile_cons]
  simp only [show pyIsSpace '#' = false from rfl]
  intro hcon
  rw [List.reverse_eq_nil_iff, List.dropWhile_eq_nil_iff] at hcon
  have := hcon '#' (by simp)
  simp [pyIsSpace] at this

theorem pyEndsWith_ne_nil {ext s : PyStr} (h : pyEndsWith ext s = true)
    (he : ext ≠ []) : s ≠ [] := by
  intro hs
  subst hs
  unfold pyEndsWith List.isSuffixOf at h
  rw [List.isPrefixOf_iff_prefix] at h
  rw [List.reverse_nil, List.prefix_nil, List.reverse_eq_nil_iff] at h
  exact he h

theorem endsWithExtension_ne_nil (extension safe : PyStr) (he : extension ≠ []) :
    (if pyEndsWith extension safe = true then safe
      else dropExtSuffix safe ++ extension) ≠ [] := by
  split
  · next h => exact pyEndsWith_ne_nil h he
  · intro hcon
    exact he (List.append_eq_nil.mp hcon).2

theorem url_to_filename_ne_nil (md5hex : PyStr → PyStr) (url : PyStr)
    (extension : PyStr) (he : extension ≠ []) :
    url_to_filename md5hex url extension ≠ [] :=
  endsWithExtension_ne_nil extension _ he

/-- C10, confirmed: `html_to_markdown` always returns a string that is
non-empty after stripping and starts with the `# title` / `> Source: url`
provenance header; consequently, in a non-dry-run, non-pdfs-only crawl
with a markdown folder, every successfully crawled HTML page's log entry
carries a non-empty `saved_as`. -/
theorem c10_markdown_nonempty :
    (∀ (mdify : Node → PyStr) (soup : Node) (url : PyStr),
      pyStrip (html_to_markdown mdify soup url) ≠ [] ∧
      ∃ t rest, html_to_markdown mdify soup url =
        lit "# " ++ t ++ lit "\n\n> Source: " ++ url ++ lit "\n\n" ++ rest) ∧
    (∀ (cfg : Config) (w : World) (s : CrawlState) (url : PyStr) (depth : Nat)
        (ct : PyStr) (status : Nat) (soup : Node),
      cfg.dry_run = false → cfg.pdfs_only = false → cfg.md_folder = true →
      w.fetch url = .ok ct status soup →
      containsSub (lit "application/pdf") (pyLower ct) = false →
      containsSub (lit "text/html") (pyLower ct) = true →
      status < 400 →
      ∃ e, (processTask cfg w s url depth).crawl_log.getLast? = some e ∧
        e.type = lit "page" ∧ e.status = lit "crawled" ∧ e.saved_as ≠ []) := by
  have hmain : ∀ (mdify : Node → PyStr) (soup : Node) (url : PyStr),
      pyStrip (html_to_markdown mdify soup url) ≠ [] := by
    intro mdify soup url
    show pyStrip ('#' :: _) ≠ []
    exact pyStrip_hash_cons_ne_nil _
  constructor
  · intro mdify soup url
    exact ⟨hmain mdify soup url, _, _, rfl⟩
  · intro cfg w s url depth ct status soup hdry hpo hmd hf hpdf hhtml hst
    simp only [processTask, hf]
    rw [if_neg (show ¬ (containsSub (lit "application/pdf") (pyLower ct) = true) by
      rw [hpdf]; decide)]
    rw [if_neg (not_not_intro hhtml)]
    rw [if_neg (show ¬ status ≥ 400 by omega)]
    rw [enq_log]
    refine ⟨_, List.getLast?_concat _, rfl, rfl, ?_⟩
    show (if ¬ cfg.dry_run ∧ ¬ cfg.pdfs_only ∧ cfg.md_folder then
      (if pyStrip (html_to_markdown w.mdify soup url) ≠ [] then
        url_to_filename w.md5hex url (lit ".md") else []) else []) ≠ []
    rw [if_pos ⟨by simp [hdry], by simp [hpo], hmd⟩,
      if_pos (hmain w.mdify soup url)]
    exact url_to_filename_ne_nil w.md5hex url (lit ".md") (by decide)

/-- Witness for C10: in the completed scenario-A run the crawled start page
is saved with a non-empty filename. -/
theorem c10_markdown_nonempty_witness :
    ∃ e, (processTask (mkConfig argsA) worldA
        { initState (lit "http://a.com") with queue := [] }
        (lit "http://a.com") 0).crawl_log.getLast? = some e ∧
      e.type = lit "page" ∧ e.status = lit "crawled" ∧ e.saved_as ≠ [] :=
  c10_markdown_nonempty.2 (mkConfig argsA) worldA
    { initState (lit "http://a.com") with queue := [] }
    (lit "http://a.com") 0 (lit "text/html") 200 soupSiteA
    rfl rfl rfl rfl (by decide) (by decide) (by decide)

/-! ## C1: dedup of hyperlink-discovered PDFs -/

theorem linkPdfLogCount_append (p : PyStr) (log : List LogEntry) (e : LogEntry) :
    linkPdfLogCount p (log ++ [e]) = linkPdfLogCount p log +
      (if e.type = lit "pdf" ∧ e.found_on ≠ lit "direct" ∧ e.url = p then 1 else 0) := by
  by_cases hc : (e.type = lit "pdf" ∧ e.found_on ≠ lit "direct" ∧ e.url = p) <;>
    simp [linkPdfLogCount, List.filter_append, List.filter_cons, hc]

theorem linkDownloadCount_append (u : PyStr) (calls : List (PyStr × PyStr))
    (c : PyStr × PyStr) :
    linkDownloadCount u (calls ++ [c]) = linkDownloadCount u calls +
      (if c.2 ≠ lit "direct" ∧ c.1 = u then 1 else 0) := by
  by_cases hc : (c.2 ≠ lit "direct" ∧ c.1 = u) <;>
    simp [linkDownloadCount, List.filter_append, List.filter_cons, hc]

theorem linkPdfLogCount_append_page (p : PyStr) (log : List LogEntry)
    (e : LogEntry) (he : e.type = lit "page") :
    linkPdfLogCount p (log ++ [e]) = linkPdfLogCount p log := by
  rw [linkPdfLogCount_append, if_neg]
  · omega
  · intro hcon
    rw [he] at hcon
    exact absurd hcon.1 (by decide)

theorem linkPdfLogCount_append_direct (p : PyStr) (log : List LogEntry)
    (e : LogEntry) (he : e.found_on = lit "direct") :
    linkPdfLogCount p (log ++ [e]) = linkPdfLogCount p log := by
  rw [linkPdfLogCount_append, if_neg]
  · omega
  · intro hcon
    exact absurd he hcon.2.1

theorem linkDownloadCount_append_direct (u : PyStr)
    (calls : List (PyStr × PyStr)) (c : PyStr × PyStr)
    (hc : c.2 = lit "direct") :
    linkDownloadCount u (calls ++ [c]) = linkDownloadCount u calls := by
  rw [linkDownloadCount_append, if_neg]
  · omega
  · intro hcon
    exact absurd hc hcon.1

theorem linkPdfLogCount_append_ne (p : PyStr) (log : List LogEntry)
    (e : LogEntry) (hne : e.url ≠ p) :
    linkPdfLogCount p (log ++ [e]) = linkPdfLogCount p log := by
  rw [linkPdfLogCount_append, if_neg]
  · omega
  · intro hcon
    exact hne hcon.2.2

theorem linkDownloadCount_append_ne (u : PyStr)
    (calls : List (PyStr × PyStr)) (c : PyStr × PyStr) (hne : c.1 ≠ u) :
    linkDownloadCount u (calls ++ [c]) = linkDownloadCount u calls := by
  rw [linkDownloadCount_append, if_neg]
  · omega
  · intro hcon
    exact hne hcon.2

theorem hpl_all_pdfs_mono (cfg : Config) (w : World) (p : PyStr) (d : Nat) :
    ∀ (l : List PyStr) (s : CrawlState),
      s.all_pdfs ⊆ (handlePdfLinks cfg w p d l s).all_pdfs := by
  intro l
  induction l with
  | nil => intro s; exact fun a ha => ha
  | cons x xs ih =>
    intro s
    simp only [handlePdfLinks]
    split
    · exact ih s
    · intro a ha
      exact ih _ (List.mem_append_left _ ha)

theorem hpl_PdfInv (cfg : Config) (w : World) (pageUrl : PyStr) (d : Nat) :
    ∀ (l : List PyStr) (s : CrawlState),
      PdfInv s → PdfInv (handlePdfLinks cfg w pageUrl d l s) := by
  intro l
  induction l with
  | nil => intro s h; exact h
  | cons x xs ih =>
    intro s h
    simp only [handlePdfLinks]
    split
    · exact ih s h
    · next hnp =>
      apply ih
      intro p
      have hlog := linkPdfLogCount_append p s.crawl_log
        (pdfEntry cfg (normalize_url x) d pageUrl (attemptDownload cfg w (normalize_url x)))
      have hmemnew : (normalize_url x) ∈ s.all_pdfs ++ [normalize_url x] := by
        simp
      by_cases hp : p = normalize_url x
      · have h0log : linkPdfLogCount p s.crawl_log = 0 := by
          by_contra hne
          refine hnp ?_
          rw [← hp]
          exact (h p).2 (Or.inl (by omega))
        have h0dl : linkDownloadCount p s.downloadCalls = 0 := by
          by_contra hne
          refine hnp ?_
          rw [← hp]
          exact (h p).2 (Or.inr (by omega))
        constructor
        · constructor
          · show linkPdfLogCount p (s.crawl_log ++ [_]) ≤ 1
            rw [linkPdfLogCount_append, h0log]
            split <;> omega
          · show linkDownloadCount p (s.downloadCalls ++ _) ≤ 1
            split
            · rw [linkDownloadCount_append, h0dl]
              split <;> omega
            · rw [List.append_nil, h0dl]
              omega
        · intro _
          rw [hp]
          exact hmemnew
      · have hplog : linkPdfLogCount p (s.crawl_log ++
            [pdfEntry cfg (normalize_url x) d pageUrl
              (attemptDownload cfg w (normalize_url x))]) =
            linkPdfLogCount p s.crawl_log :=
          linkPdfLogCount_append_ne p _ _ (fun hx => hp hx.symm)
        have hpdl : linkDownloadCount p (s.downloadCalls ++
            (if (attemptDownload cfg w (normalize_url x)).called then
              [(normalize_url x, pageUrl)] else [])) =
            linkDownloadCount p s.downloadCalls := by
          split
          · exact linkDownloadCount_append_ne p _ _ (fun hx => hp hx.symm)
          · rw [List.append_nil]
        constructor
        · exact ⟨by rw [hplog]; exact (h p).1.1, by rw [hpdl]; exact (h p).1.2⟩
        · intro hge
          refine List.mem_append_left _ ((h p).2 ?_)
          rcases hge with hge | hge
          · exact Or.inl (by rw [hplog] at hge; exact hge)
          · exact Or.inr (by rw [hpdl] at hge; exact hge)

theorem enq_PdfInv (cfg : Config) (d : Nat) (l : List PyStr) (s : CrawlState)
    (h : PdfInv s) : PdfInv (enqueueLinks cfg d l s) := by
  intro p
  rw [show (enqueueLinks cfg d l s).crawl_log = s.crawl_log from enq_log cfg d l s,
    show (enqueueLinks cfg d l s).downloadCalls = s.downloadCalls from
      enq_downloadCalls cfg d l s,
    show (enqueueLinks cfg d l s).all_pdfs = s.all_pdfs from enq_all_pdfs cfg d l s]
  exact h p

theorem PdfInv_of_fields (s s' : CrawlState) (h : PdfInv s)
    (hlog : ∀ p, linkPdfLogCount p s'.crawl_log = linkPdfLogCount p s.crawl_log)
    (hdl : ∀ p, linkDownloadCount p s'.downloadCalls =
      linkDownloadCount p s.downloadCalls)
    (hpdfs : s.all_pdfs ⊆ s'.all_pdfs) : PdfInv s' := by
  intro p
  refine ⟨⟨by rw [hlog]; exact (h p).1.1, by rw [hdl]; exact (h p).1.2⟩,
    fun hge => hpdfs ((h p).2 ?_)⟩
  rcases hge with hge | hge
  · exact Or.inl (by rw [hlog] at hge; exact hge)
  · exact Or.inr (by rw [hdl] at hge; exact hge)

theorem pt_PdfInv (cfg : Config) (w : World) (s : CrawlState) (url : PyStr)
    (depth : Nat) (h : PdfInv s) :
    PdfInv (processTask cfg w s url depth) := by
  cases hf : w.fetch url with
  | exn msg =>
    simp only [processTask, hf]
    refine PdfInv_of_fields s _ h (fun p => ?_) (fun p => rfl) (fun a ha => ha)
    exact linkPdfLogCount_append_page p _ _ rfl
  | noResponse =>
    simp only [processTask, hf]
    exact h
  | ok ct status soup =>
    simp only [processTask, hf]
    split
    · refine PdfInv_of_fields s _ h (fun p => ?_) (fun p => ?_)
        (fun a ha => insertNew_subset ha)
      · exact linkPdfLogCount_append_direct p _ _ rfl
      · show linkDownloadCount p (s.downloadCalls ++
          (if (attemptDownload cfg w url).called then [(url, lit "direct")] else [])) =
          linkDownloadCount p s.downloadCalls
        split
        · exact linkDownloadCount_append_direct p _ _ rfl
        · rw [List.append_nil]
    · split
      · exact h
      · split
        · refine PdfInv_of_fields s _ h (fun p => ?_) (fun p => rfl) (fun a ha => ha)
          exact linkPdfLogCount_append_page p _ _ rfl
        · apply enq_PdfInv
          refine PdfInv_of_fields _ _
            (hpl_PdfInv cfg w url depth (extract_pdf_links soup url)
              { s with
                visited := insertNew url s.visited
                fetchCalls := s.fetchCalls ++ [(url, depth)]
                pages_crawled := s.pages_crawled + 1
                all_pages := insertNew url s.all_pages } h)
            (fun p => ?_) (fun p => rfl) (fun a ha => ha)
          exact linkPdfLogCount_append_page p _ _ rfl

/-! ## C8: `extract_pdf_links` -/

theorem mem_foldl_insertNew (l : List PyStr) :
    ∀ (acc : List PyStr) (x : PyStr),
      x ∈ l.foldl (fun a y => insertNew y a) acc ↔ x ∈ acc ∨ x ∈ l := by
  induction l with
  | nil => intro acc x; simp
  | cons y ys ih =>
    intro acc x
    rw [List.foldl_cons, ih, insertNew_mem]
    simp only [List.mem_cons]
    tauto

theorem mem_pdf_anchor_fold (base : PyStr) :
    ∀ (tags : List Node) (acc : List PyStr) (x : PyStr),
      (x ∈ tags.foldl (fun acc tag =>
        match attrOf tag (lit "href") with
        | some hv =>
          let href := pyStrip hv
          if pyEndsWith (lit ".pdf") (pyLower href) then
            insertNew (urljoinPy base href) acc
          else acc
        | none => acc) acc) ↔
      (x ∈ acc ∨ ∃ tag ∈ tags, ∃ hv, attrOf tag (lit "href") = some hv ∧
        pyEndsWith (lit ".pdf") (pyLower (pyStrip hv)) = true ∧
        x = urljoinPy base (pyStrip hv)) := by
  intro tags
  induction tags with
  | nil => intro acc x; simp
  | cons t ts ih =>
    intro acc x
    rw [List.foldl_cons, ih]
    simp only [List.mem_cons]
    constructor
    · rintro (hin | hex)
      · rcases ha : attrOf t (lit "href") with _ | hv
        · simp only [ha] at hin
          exact Or.inl hin
        · simp only [ha] at hin
          by_cases hc : pyEndsWith (lit ".pdf") (pyLower (pyStrip hv)) = true
          · rw [if_pos hc] at hin
            rcases insertNew_mem.mp hin with hin' | rfl
            · exact Or.inl hin'
            · exact Or.inr ⟨t, Or.inl rfl, hv, ha, hc, rfl⟩
          · rw [if_neg hc] at hin
            exact Or.inl hin
      · rcases hex with ⟨tag, htag, hv, ha, hc, hx⟩
        exact Or.inr ⟨tag, Or.inr htag, hv, ha, hc, hx⟩
    · rintro (hin | ⟨tag, htag | htag, hv, ha, hc, hx⟩)
      · left
        rcases hb : attrOf t (lit "href") with _ | hv'
        · simp only [hb]
          exact hin
        · simp only [hb]
          split
          · exact insertNew_subset hin
          · exact hin
      · left
        subst htag
        simp only [ha]
        rw [if_pos hc, hx]
        exact mem_insertNew_self _ _
      · exact Or.inr ⟨tag, htag, hv, ha, hc, hx⟩

theorem mem_pdf_embed_fold (base : PyStr) :
    ∀ (tags : List Node) (acc : List PyStr) (x : PyStr),
      (x ∈ tags.foldl (fun acc tag =>
        let src := srcOrData tag
        if src ≠ [] ∧ pyEndsWith (lit ".pdf") (pyLower src) then
          insertNew (urljoinPy base src) acc
        else acc) acc) ↔
      (x ∈ acc ∨ ∃ tag ∈ tags, (srcOrData tag ≠ [] ∧
        pyEndsWith (lit ".pdf") (pyLower (srcOrData tag)) = true) ∧
        x = urljoinPy base (srcOrData tag)) := by
  intro tags
  induction tags with
  | nil => intro acc x; simp
  | cons t ts ih =>
    intro acc x
    rw [List.foldl_cons, ih]
    simp only [List.mem_cons]
    constructor
    · rintro (hin | hex)
      · by_cases hc : srcOrData t ≠ [] ∧ pyEndsWith (lit ".pdf") (pyLower (srcOrData t)) = true
        · rw [if_pos hc] at hin
          rcases insertNew_mem.mp hin with hin' | rfl
          · exact Or.inl hin'
          · exact Or.inr ⟨t, Or.inl rfl, hc, rfl⟩
        · rw [if_neg hc] at hin
          exact Or.inl hin
      · rcases hex with ⟨tag, htag, hc, hx⟩
        exact Or.inr ⟨tag, Or.inr htag, hc, hx⟩
    · rintro (hin | ⟨tag, htag | htag, hc, hx⟩)
      · left
        split
        · exact insertNew_subset hin
        · exact hin
      · left
        subst htag
        rw [if_pos hc, hx]
        exact mem_insertNew_self _ _
      · exact Or.inr ⟨tag, htag, hc, hx⟩

/-- C8, amended: `extract_pdf_links` returns exactly the absolute URLs of
(a) anchors whose **stripped `href` string** ends case-insensitively in
`.pdf` (a query string or fragment after the suffix defeats the check),
and (b) `<iframe>`/`<embed>`/`<object>` elements that **carry a `src`
attribute**, resolving their `src` — or their `data` only when the `src`
value is empty — when it ends case-insensitively in `.pdf`; `<object>`
elements with only a `data` attribute are never consulted, as the
counterexample shows. -/
theorem c8_extract_pdf_links (soup : Node) (base_url : PyStr) (x : PyStr) :
    x ∈ extract_pdf_links soup base_url ↔ x ∈ extract_pdf_links_spec soup base_url := by
  simp only [extract_pdf_links, extract_pdf_links_spec]
  rw [mem_pdf_embed_fold, mem_pdf_anchor_fold, mem_foldl_insertNew]
  simp only [List.not_mem_nil, false_or, List.mem_append, List.mem_filterMap,
    List.mem_filter, Option.bind_eq_some]
  constructor
  · rintro ((⟨tag, htag, hv, ha, hc, hx⟩) | ⟨tag, ⟨htag, hsrc⟩, hc, hx⟩)
    · refine Or.inl ⟨tag, htag, hv, ha, ?_⟩
      rw [if_pos hc, hx]
    · refine Or.inr ⟨tag, htag, ?_⟩
      rw [if_pos (by exact_mod_cast hsrc), if_pos hc, hx]
  · rintro (⟨tag, htag, hv, ha, hf⟩ | ⟨tag, htag, hf⟩)
    · left
      split at hf
      · next hc =>
        rcases Option.some.injEq _ _ ▸ hf with rfl
        exact ⟨tag, htag, hv, ha, hc, (Option.some_injective _ hf).symm⟩
      · exact absurd hf (by simp)
    · right
      by_cases hattr : hasAttr tag (lit "src") = true
      · rw [if_pos hattr] at hf
        split at hf
        · next hc =>
          exact ⟨tag, ⟨htag, hattr⟩, hc, (Option.some_injective _ hf).symm⟩
        · exact absurd hf (by simp)
      · rw [if_neg hattr] at hf
        exact absurd hf (by simp)

/-- C8: refuted as stated.  An `<object data="doc.pdf">` with no `src`
attribute is ignored by the code although the claim's reading collects it,
and an anchor `doc.pdf?x=1` whose resolved path ends in `.pdf` is ignored
by the code (which tests the raw `href` string) although the claim's
reading collects it. -/
theorem c8_extract_pdf_links_counterexample :
    extract_pdf_links soupSiteG (lit "http://a.com/") = [] ∧
    extract_pdf_links_claimed soupSiteG (lit "http://a.com/") =
      [lit "http://a.com/doc.pdf"] ∧
    extract_pdf_links soupSiteH (lit "http://a.com/") = [] ∧
    extract_pdf_links_claimed soupSiteH (lit "http://a.com/") =
      [lit "http://a.com/doc.pdf?x=1"] := by decide

theorem loop_PdfInv (cfg : Config) (w : World) :
    ∀ (n : Nat) (s : CrawlState), PdfInv s → PdfInv (crawlLoop cfg w n s) := by
  intro n
  induction n with
  | zero => intro s h; exact h
  | succ k ih =>
    intro s h
    rcases hq : s.queue with _ | ⟨⟨url, depth⟩, rest⟩
    · simp only [crawlLoop, hq]; exact h
    · simp only [crawlLoop, hq]
      split
      · exact h
      · split
        · exact ih _ h
        · split
          · exact ih _ h
          · exact ih _ (pt_PdfInv cfg w _ url depth h)

/-- C1, amended: PDF URLs discovered via hyperlinks on crawled pages are
deduplicated for the whole run — per normalized URL at most one download
and at most one pdf log entry whose `found_on` names a page; a **direct**
fetch of a PDF URL (content-type `application/pdf`), however, always
downloads and appends another entry even when the URL is already known, as
the counterexample shows. -/
theorem c1_pdf_dedup (cfg : Config) (w : World) (fuel : Nat) (start : PyStr)
    (p : PyStr) :
    linkPdfLogCount p (crawlLoop cfg w fuel (initState start)).crawl_log ≤ 1 ∧
    linkDownloadCount p (crawlLoop cfg w fuel (initState start)).downloadCalls ≤ 1 := by
  refine (loop_PdfInv cfg w fuel (initState start) ?_ p).1
  intro q
  have h1 : linkPdfLogCount q (initState start).crawl_log = 0 := rfl
  have h2 : linkDownloadCount q (initState start).downloadCalls = 0 := rfl
  exact ⟨⟨by omega, by omega⟩, fun hge => absurd hge (by omega)⟩

/-! ## Idempotence infrastructure: `splitOnFirst` -/

theorem splitOnFirst_of_not_mem {c : Char} :
    ∀ {s : PyStr}, c ∉ s → splitOnFirst c s = (s, none) := by
  intro s
  induction s with
  | nil => intro _; rfl
  | cons x xs ih =>
    intro h
    have hx : ¬ x = c := fun hc => h (by rw [← hc]; exact List.mem_cons_self x xs)
    have h2 : c ∉ xs := fun hc => h (List.mem_cons_of_mem _ hc)
    simp [splitOnFirst, hx, ih h2]

theorem splitOnFirst_spec {c : Char} :
    ∀ {s a b : PyStr}, splitOnFirst c s = (a, some b) → s = a ++ c :: b ∧ c ∉ a := by
  intro s
  induction s with
  | nil => intro a b h; exact absurd (congrArg Prod.snd h) (by simp [splitOnFirst])
  | cons x xs ih =>
    intro a b h
    by_cases hx : x = c
    · rw [show splitOnFirst c (x :: xs) = ([], some xs) from by
        simp [splitOnFirst, hx]] at h
      have ha : ([] : PyStr) = a := congrArg Prod.fst h
      have hb : xs = b := Option.some.inj (congrArg Prod.snd h)
      refine ⟨?_, by rw [← ha]; exact List.not_mem_nil c⟩
      rw [← ha, hx, hb]
      rfl
    · rcases hr : splitOnFirst c xs with ⟨r1, r2⟩
      rw [show splitOnFirst c (x :: xs) = (x :: r1, r2) from by
        simp [splitOnFirst, hx, hr]] at h
      have ha : x :: r1 = a := congrArg Prod.fst h
      have hb : r2 = some b := congrArg Prod.snd h
      subst hb
      rcases ih hr with ⟨hxs, hnm⟩
      constructor
      · rw [← ha, hxs]
        rfl
      · rw [← ha]
        intro hc
        rcases List.mem_cons.mp hc with hc | hc
        · exact hx hc.symm
        · exact hnm hc
    
theorem splitOnFirst_none_not_mem {c : Char} :
    ∀ {s : PyStr}, (splitOnFirst c s).2 = none → c ∉ s := by
  intro s
  induction s with
  | nil => intro _; exact List.not_mem_nil c
  | cons x xs ih =>
    intro h
    by_cases hx : x = c
    · rw [show splitOnFirst c (x :: xs) = ([], some xs) from by
        simp [splitOnFirst, hx]] at h
      exact absurd h (by simp)
    · rw [show splitOnFirst c (x :: xs) =
          (x :: (splitOnFirst c xs).1, (splitOnFirst c xs).2) from by
        simp [splitOnFirst, hx]] at h
      intro hc
      rcases List.mem_cons.mp hc with hc | hc
      · exact hx hc.symm
      · exact ih h hc

theorem not_mem_splitOnFirst_fst (c : Char) (s : PyStr) :
    c ∉ (splitOnFirst c s).1 := by
  rcases h2 : (splitOnFirst c s).2 with _ | b
  · have h := splitOnFirst_none_not_mem h2
    intro hc
    have hpre : (splitOnFirst c s).1 = s := by
      rw [splitOnFirst_of_not_mem h]
    rw [hpre] at hc
    exact h hc
  · exact (splitOnFirst_spec (by rw [← h2])).2

theorem splitOnFirst_append_first {c : Char} :
    ∀ {a : PyStr} (b : PyStr), c ∉ a → splitOnFirst c (a ++ c :: b) = (a, some b) := by
  intro a
  induction a with
  | nil => intro b _; simp [splitOnFirst]
  | cons x xs ih =>
    intro b h
    have hx : ¬ x = c := fun hc => h (by rw [← hc]; exact List.mem_cons_self x xs)
    have h2 : c ∉ xs := fun hc => h (List.mem_cons_of_mem _ hc)
    simp only [List.cons_append, splitOnFirst, hx, if_false, List.append_eq]
    rw [ih b h2]

theorem splitOnFirst_fst_pre (c : Char) (s : PyStr) :
    (splitOnFirst c s).1 <+: s := by
  rcases h2 : (splitOnFirst c s).2 with _ | b
  · rw [show (splitOnFirst c s).1 = s from by
      rw [splitOnFirst_of_not_mem (splitOnFirst_none_not_mem h2)]]
  · rcases splitOnFirst_spec (s := s) (by rw [← h2]) with ⟨hs, _⟩
    exact ⟨c :: b, hs.symm⟩

/-! ## Idempotence infrastructure: characters -/

theorem char_toNat_ofNat (n : Nat) (h : n.isValidChar) : (Char.ofNat n).toNat = n := by
  unfold Char.ofNat
  rw [dif_pos h]
  unfold Char.ofNatAux Char.toNat
  simp [UInt32.toNat]

theorem lowerChar_toNat_of_upper (c : Char) (h : 'A' ≤ c ∧ c ≤ 'Z') :
    (lowerChar c).toNat = c.toNat + 32 := by
  have h1 : (65 : Nat) ≤ c.toNat := h.1
  have h2 : c.toNat ≤ ('Z').toNat := h.2
  have hz : ('Z').toNat = 90 := by decide
  unfold lowerChar
  rw [if_pos h]
  exact char_toNat_ofNat _ (Or.inl (by omega))

theorem lowerChar_idem (c : Char) : lowerChar (lowerChar c) = lowerChar c := by
  by_cases h : 'A' ≤ c ∧ c ≤ 'Z'
  · have ht := lowerChar_toNat_of_upper c h
    have h1 : (65 : Nat) ≤ c.toNat := h.1
    have h2 : c.toNat ≤ ('Z').toNat := h.2
    have hz : ('Z').toNat = 90 := by decide
    have hnot : ¬ ('A' ≤ lowerChar c ∧ lowerChar c ≤ 'Z') := by
      intro hcon
      have h3 : (lowerChar c).toNat ≤ ('Z').toNat := hcon.2
      omega
    have hstep : lowerChar (lowerChar c) =
        if 'A' ≤ lowerChar c ∧ lowerChar c ≤ 'Z' then
          Char.ofNat ((lowerChar c).toNat + 32)
        else lowerChar c := rfl
    rw [hstep, if_neg hnot]
  · have hstep : lowerChar c = c := by unfold lowerChar; rw [if_neg h]
    rw [hstep, hstep]

theorem lowerChar_alpha (c : Char) (h : isAsciiAlpha c = true) :
    isAsciiAlpha (lowerChar c) = true := by
  simp only [isAsciiAlpha, Bool.or_eq_true, decide_eq_true_eq] at h ⊢
  rcases h with h | h
  · left
    have hstep : lowerChar c = c := by
      unfold lowerChar
      rw [if_neg]
      intro hcon
      have h1 : (97 : Nat) ≤ c.toNat := h.1
      have h2 : c.toNat ≤ ('Z').toNat := hcon.2
      have hz : ('Z').toNat = 90 := by decide
      omega
    rw [hstep]
    exact h
  · left
    have ht := lowerChar_toNat_of_upper c h
    have h1 : (65 : Nat) ≤ c.toNat := h.1
    have h2 : c.toNat ≤ ('Z').toNat := h.2
    have hz : ('Z').toNat = 90 := by decide
    constructor
    · show ('a').toNat ≤ (lowerChar c).toNat
      have : ('a').toNat = 97 := by decide
      omega
    · show (lowerChar c).toNat ≤ ('z').toNat
      have : ('z').toNat = 122 := by decide
      omega

theorem lowerChar_schemeChar (c : Char) (h : isSchemeChar c = true) :
    isSchemeChar (lowerChar c) = true := by
  simp only [isSchemeChar, Bool.or_eq_true, decide_eq_true_eq] at h ⊢
  by_cases hu : 'A' ≤ c ∧ c ≤ 'Z'
  · have ht := lowerChar_toNat_of_upper c hu
    have h1 : (65 : Nat) ≤ c.toNat := hu.1
    have h2 : c.toNat ≤ ('Z').toNat := hu.2
    have hz : ('Z').toNat = 90 := by decide
    left; left; left; left; left
    constructor
    · show ('a').toNat ≤ (lowerChar c).toNat
      have : ('a').toNat = 97 := by decide
      omega
    · show (lowerChar c).toNat ≤ ('z').toNat
      have : ('z').toNat = 122 := by decide
      omega
  · have hstep : lowerChar c = c := by unfold lowerChar; rw [if_neg hu]
    rw [hstep]
    exact h

theorem alpha_not_C0 (c : Char) (h : isAsciiAlpha c = true) :
    isC0OrSpace c = false := by
  simp only [isAsciiAlpha, Bool.or_eq_true, decide_eq_true_eq] at h
  simp only [isC0OrSpace, decide_eq_false_iff_not]
  intro hc
  rcases h with h | h
  · have h1 : ('a').toNat ≤ c.toNat := h.1
    have : ('a').toNat = 97 := by decide
    omega
  · have h1 : ('A').toNat ≤ c.toNat := h.1
    have : ('A').toNat = 65 := by decide
    omega

theorem unsafe_is_C0 (c : Char) (h : isUnsafeByte c = true) :
    isC0OrSpace c = true := by
  simp only [isUnsafeByte, Bool.or_eq_true, decide_eq_true_eq] at h
  rcases h with (h | h) | h <;> subst h <;> decide

theorem lowerChar_not_unsafe (c : Char) (h : isUnsafeByte c = false) :
    isUnsafeByte (lowerChar c) = false := by
  by_cases hu : 'A' ≤ c ∧ c ≤ 'Z'
  · have ht := lowerChar_toNat_of_upper c hu
    have h1 : (65 : Nat) ≤ c.toNat := hu.1
    simp only [isUnsafeByte, Bool.or_eq_false_iff, decide_eq_false_iff_not]
    refine ⟨⟨?_, ?_⟩, ?_⟩ <;> intro hc <;>
      (first
        | (have : (lowerChar c).toNat = 9 := by rw [hc]; decide
           omega)
        | (have : (lowerChar c).toNat = 13 := by rw [hc]; decide
           omega)
        | (have : (lowerChar c).toNat = 10 := by rw [hc]; decide
           omega))
  · have hstep : lowerChar c = c := by unfold lowerChar; rw [if_neg hu]
    rw [hstep]
    exact h

theorem schemeChar_ne_colon (c : Char) (h : isSchemeChar c = true) : c ≠ ':' := by
  intro hc
  subst hc
  exact absurd h (by decide)

/-! ## Idempotence infrastructure: `sanitize`, `rstripChar`, `takeWhile` -/

theorem sanitize_no_unsafe (u : PyStr) :
    ∀ c ∈ sanitize u, isUnsafeByte c = false := by
  intro c hc
  have := List.of_mem_filter hc
  simpa using this

theorem sanitize_head_not_C0 (u : PyStr) (h : sanitize u ≠ []) :
    isC0OrSpace ((sanitize u).headD ' ') = false := by
  unfold sanitize at h ⊢
  rcases hd : u.dropWhile isC0OrSpace with _ | ⟨x, xs⟩
  · rw [hd] at h
    exact absurd rfl h
  · have hx : isC0OrSpace x = false := by
      have := List.head?_dropWhile_not isC0OrSpace u
      rw [hd] at this
      simpa using this
    have hxs : ¬ isUnsafeByte x = true := by
      intro hcon
      rw [unsafe_is_C0 x hcon] at hx
      exact absurd hx (by simp)
    rw [List.filter_cons_of_pos (by simpa using hxs)]
    simpa using hx

theorem sanitize_fixed (v : PyStr)
    (hsafe : ∀ c ∈ v, isUnsafeByte c = false)
    (hhead : v = [] ∨ isC0OrSpace (v.headD ' ') = false) :
    sanitize v = v := by
  unfold sanitize
  have hdrop : v.dropWhile isC0OrSpace = v := by
    rcases hhead with rfl | hh
    · rfl
    · rcases v with _ | ⟨x, xs⟩
      · rfl
      · rw [List.dropWhile_cons_of_neg]
        simpa using hh
  rw [hdrop]
  rw [List.filter_eq_self.mpr]
  intro a ha
  simpa using hsafe a ha

theorem rstripChar_pre (c : Char) (s : PyStr) : rstripChar c s <+: s := by
  refine ⟨(s.reverse.takeWhile (fun x => x = c)).reverse, ?_⟩
  unfold rstripChar
  rw [← List.reverse_append, List.takeWhile_append_dropWhile, List.reverse_reverse]

theorem dropWhile_fixed_append {p : Char → Bool} {l : PyStr} (t : PyStr)
    (h : l.dropWhile p = l) (hne : l ≠ []) :
    (l ++ t).dropWhile p = l ++ t := by
  rcases l with _ | ⟨x, xs⟩
  · exact absurd rfl hne
  · have hx : p x = false := by
      by_cases hpx : p x = true
      · rw [List.dropWhile_cons_of_pos hpx] at h
        exact absurd (congrArg List.length h)
          (by simp; have := (List.dropWhile_suffix (l := xs) p).length_le; omega)
      · simpa using hpx
    rw [List.cons_append, List.dropWhile_cons_of_neg (by simp [hx])]

theorem rstripChar_idem (c : Char) (s : PyStr) :
    rstripChar c (rstripChar c s) = rstripChar c s := by
  unfold rstripChar
  rw [List.reverse_reverse]
  congr 1
  rcases hd : s.reverse.dropWhile (fun x => x = c) with _ | ⟨x, xs⟩
  · rfl
  · have hx : (fun x => decide (x = c)) x = false := by
      have := List.head?_dropWhile_not (fun x => decide (x = c)) s.reverse
      rw [hd] at this
      simpa using this
    rw [List.dropWhile_cons_of_neg (by simpa using hx)]

theorem rstripChar_fixed_getLast (c : Char) (s : PyStr)
    (h : rstripChar c s = s) (hne : s ≠ []) :
    s.reverse.headD ' ' ≠ c := by
  intro hc
  rcases hr : s.reverse with _ | ⟨x, xs⟩
  · exact hne (by simpa using congrArg List.reverse hr)
  · rw [hr] at hc
    simp at hc
    unfold rstripChar at h
    rw [hr, List.dropWhile_cons_of_pos (by simpa using hc)] at h
    have hlen := congrArg List.length h
    simp at hlen
    have := (List.dropWhile_suffix (l := xs) (fun x => decide (x = c))).length_le
    have hsr : s.reverse.length = s.length := by simp
    rw [hr] at hsr
    simp at hsr
    omega

theorem takeWhile_append_all {p : Char → Bool} :
    ∀ (nl rest : PyStr), (∀ c ∈ nl, p c = true) →
      (rest = [] ∨ p (rest.headD ' ') = false) →
      (nl ++ rest).takeWhile p = nl ∧ (nl ++ rest).dropWhile p = rest := by
  intro nl
  induction nl with
  | nil =>
    intro rest _ hr
    rcases hr with rfl | hr
    · exact ⟨rfl, rfl⟩
    · rcases rest with _ | ⟨x, xs⟩
      · exact ⟨rfl, rfl⟩
      · simp only [List.nil_append]
        constructor
        · rw [List.takeWhile_cons_of_neg (by simpa using hr)]
        · rw [List.dropWhile_cons_of_neg (by simpa using hr)]
  | cons x xs ih =>
    intro rest hall hr
    have hx : p x = true := hall x (List.mem_cons_self x xs)
    have hxs : ∀ c ∈ xs, p c = true := fun c hc => hall c (List.mem_cons_of_mem _ hc)
    rcases ih rest hxs hr with ⟨h1, h2⟩
    constructor
    · rw [List.cons_append, List.takeWhile_cons_of_pos hx, h1]
    · rw [List.cons_append, List.dropWhile_cons_of_pos hx, h2]

theorem dropWhile_head_not {p : Char → Bool} (l : PyStr)
    (h : l.dropWhile p ≠ []) : p ((l.dropWhile p).headD ' ') = false := by
  have := List.head?_dropWhile_not p l
  rcases hd : l.dropWhile p with _ | ⟨x, xs⟩
  · exact absurd hd h
  · rw [hd] at this
    simpa using this

theorem prefix_headD {p s : PyStr} (h : p <+: s) (hne : p ≠ []) (d : Char) :
    p.headD d = s.headD d := by
  rcases h with ⟨t, rfl⟩
  rcases p with _ | ⟨x, xs⟩
  · exact absurd rfl hne
  · rfl

theorem prefix_not_mem {x : Char} {p s : PyStr} (h : p <+: s) (hs : x ∉ s) :
    x ∉ p := by
  rcases h with ⟨t, rfl⟩
  intro hc
  exact hs (List.mem_append_left _ hc)

theorem prefix_take_two {p s : PyStr} (h : p <+: s)
    (h2 : p.take 2 = lit "//") : s.take 2 = lit "//" := by
  rcases h with ⟨t, rfl⟩
  rcases p with _ | ⟨x1, _ | ⟨x2, xs⟩⟩
  · exact absurd h2 (by decide)
  · exact absurd h2 (by simp [lit])
  · simp [List.take] at h2 ⊢
    exact h2

/-! ## Idempotence infrastructure: `splitScheme` and `pyLower` -/

theorem splitOnFirst_append_of_not_mem {c : Char} :
    ∀ {a : PyStr} (b : PyStr), c ∉ a →
      splitOnFirst c (a ++ b) = (a ++ (splitOnFirst c b).1, (splitOnFirst c b).2) := by
  intro a
  induction a with
  | nil => intro b _; simp
  | cons x xs ih =>
    intro b h
    have hx : ¬ x = c := fun hc => h (by rw [← hc]; exact List.mem_cons_self x xs)
    have h2 : c ∉ xs := fun hc => h (List.mem_cons_of_mem _ hc)
    simp only [List.cons_append, splitOnFirst, hx, if_false, List.append_eq]
    rw [ih b h2]

theorem splitOnFirst_snd_some_of_mem {c : Char} {s : PyStr} (h : c ∈ s) :
    ∃ b, (splitOnFirst c s).2 = some b := by
  rcases h2 : (splitOnFirst c s).2 with _ | b
  · exact absurd h (splitOnFirst_none_not_mem h2)
  · exact ⟨b, rfl⟩

theorem pyLower_ne_nil {s : PyStr} (h : s ≠ []) : pyLower s ≠ [] := by
  unfold pyLower
  simpa using h

theorem pyLower_idem (s : PyStr) : pyLower (pyLower s) = pyLower s := by
  unfold pyLower
  rw [List.map_map]
  exact List.map_congr_left (fun c _ => lowerChar_idem c)

theorem pyLower_headD (s : PyStr) (h : s ≠ []) :
    (pyLower s).headD ' ' = lowerChar (s.headD ' ') := by
  rcases s with _ | ⟨x, xs⟩
  · exact absurd rfl h
  · rfl

theorem pyLower_all_scheme {s : PyStr} (h : s.all isSchemeChar = true) :
    (pyLower s).all isSchemeChar = true := by
  unfold pyLower
  rw [List.all_map]
  rw [List.all_eq_true] at h ⊢
  exact fun c hc => lowerChar_schemeChar c (h c hc)

theorem schemeChar_not_unsafe (c : Char) (h : isSchemeChar c = true) :
    isUnsafeByte c = false := by
  simp only [isSchemeChar, Bool.or_eq_true, decide_eq_true_eq] at h
  simp only [isUnsafeByte, Bool.or_eq_false_iff, decide_eq_false_iff_not]
  rcases h with ((((h | h) | h) | h) | h) | h
  · refine ⟨⟨?_, ?_⟩, ?_⟩ <;> intro hc <;> subst hc <;>
      revert h <;> decide
  · refine ⟨⟨?_, ?_⟩, ?_⟩ <;> intro hc <;> subst hc <;>
      revert h <;> decide
  · refine ⟨⟨?_, ?_⟩, ?_⟩ <;> intro hc <;> subst hc <;>
      revert h <;> decide
  all_goals subst h; exact ⟨⟨by decide, by decide⟩, by decide⟩

theorem splitScheme_some_spec {u s r : PyStr}
    (h : splitScheme u = some (s, r)) :
    ∃ pre, u = pre ++ ':' :: r ∧ s = pyLower pre ∧ pre ≠ [] ∧
      isAsciiAlpha (pre.headD ' ') = true ∧ pre.all isSchemeChar = true := by
  unfold splitScheme at h
  rcases hsp : splitOnFirst ':' u with ⟨pre, _ | rest⟩
  · simp only [hsp] at h
    exact absurd h (by simp)
  · simp only [hsp] at h
    by_cases hc : pre ≠ [] ∧ isAsciiAlpha (pre.headD ' ') = true ∧
        pre.all isSchemeChar = true
    · rw [if_pos hc] at h
      have hs : pyLower pre = s := congrArg Prod.fst (Option.some.inj h)
      have hr : rest = r := congrArg Prod.snd (Option.some.inj h)
      rcases splitOnFirst_spec hsp with ⟨hu, _⟩
      exact ⟨pre, by rw [hu, hr], hs.symm, hc.1, hc.2.1, hc.2.2⟩
    · rw [if_neg hc] at h
      exact absurd h (by simp)

theorem splitScheme_some_ne_nil {u s r : PyStr}
    (h : splitScheme u = some (s, r)) : s ≠ [] := by
  rcases splitScheme_some_spec h with ⟨pre, _, hs, hne, _, _⟩
  rw [hs]
  exact pyLower_ne_nil hne

theorem splitScheme_valid {sc : PyStr} (w : PyStr) (hne : sc ≠ [])
    (halpha : isAsciiAlpha (sc.headD ' ') = true)
    (hall : sc.all isSchemeChar = true) :
    splitScheme (sc ++ ':' :: w) = some (pyLower sc, w) := by
  have hnc : ':' ∉ sc := by
    intro hc
    have := (List.all_eq_true.mp hall) ':' hc
    exact absurd this (by decide)
  unfold splitScheme
  simp only [splitOnFirst_append_first w hnc]
  rw [if_pos ⟨hne, halpha, hall⟩]

theorem splitScheme_eq_none_of_fst {u : PyStr}
    (h : (splitOnFirst ':' u).1 = [] ∨
      isAsciiAlpha (((splitOnFirst ':' u).1).headD ' ') = false ∨
      ¬ ((splitOnFirst ':' u).1).all isSchemeChar = true) :
    splitScheme u = none := by
  unfold splitScheme
  rcases hsp : splitOnFirst ':' u with ⟨pre, _ | rest⟩
  · simp only [hsp]
  · simp only [hsp] at h ⊢
    rw [if_neg]
    intro hcon
    rcases h with h | h | h
    · exact hcon.1 h
    · rw [hcon.2.1] at h
      exact absurd h (by simp)
    · exact h hcon.2.2

theorem splitScheme_none_cases {u : PyStr} (h : splitScheme u = none) :
    (splitOnFirst ':' u).2 = none ∨ (splitOnFirst ':' u).1 = [] ∨
      isAsciiAlpha (((splitOnFirst ':' u).1).headD ' ') = false ∨
      ¬ ((splitOnFirst ':' u).1).all isSchemeChar = true := by
  unfold splitScheme at h
  rcases hsp : splitOnFirst ':' u with ⟨pre, _ | rest⟩
  · exact Or.inl rfl
  · simp only [hsp] at h
    right
    by_cases h1 : pre = []
    · exact Or.inl h1
    · by_cases h2 : isAsciiAlpha (pre.headD ' ') = true
      · by_cases h3 : pre.all isSchemeChar = true
        · rw [if_pos ⟨h1, h2, h3⟩] at h
          exact absurd h (by simp)
        · exact Or.inr (Or.inr h3)
      · exact Or.inr (Or.inl (by simpa using h2))

theorem splitScheme_none_of_no_colon {u : PyStr} (h : ':' ∉ u) :
    splitScheme u = none := by
  unfold splitScheme
  simp only [splitOnFirst_of_not_mem h]

theorem splitScheme_none_head {u : PyStr}
    (h : isAsciiAlpha (u.headD ' ') = false) : splitScheme u = none := by
  apply splitScheme_eq_none_of_fst
  by_cases h1 : (splitOnFirst ':' u).1 = []
  · exact Or.inl h1
  · refine Or.inr (Or.inl ?_)
    rw [prefix_headD (splitOnFirst_fst_pre ':' u) h1 ' ']
    exact h

/-! ## Idempotence infrastructure: small list facts -/

theorem take_one_headD (l : PyStr) (h : l ≠ []) : l.take 1 = [l.headD ' '] := by
  rcases l with _ | ⟨x, xs⟩
  · exact absurd rfl h
  · rfl

theorem headD_append_left (a b : PyStr) (d : Char) (h : a ≠ []) :
    (a ++ b).headD d = a.headD d := by
  rcases a with _ | ⟨x, xs⟩
  · exact absurd rfl h
  · rfl

theorem rstripChar_eq_self (c : Char) (s : PyStr) (h : s.reverse.head? ≠ some c) :
    rstripChar c s = s := by
  unfold rstripChar
  rcases hr : s.reverse with _ | ⟨x, xs⟩
  · have hs : s = [] := by simpa using congrArg List.reverse hr
    rw [hs]
    rfl
  · have hx : ¬ x = c := by
      intro hc
      rw [hr, hc] at h
      exact h rfl
    rw [List.dropWhile_cons_of_neg (by simpa using hx)]
    rw [← hr, List.reverse_reverse]

theorem rstripChar_fixed_head (c : Char) (s : PyStr) (h : rstripChar c s = s) :
    s.reverse.head? ≠ some c := by
  rcases hr : s.reverse with _ | ⟨x, xs⟩
  · simp
  · have hne : s ≠ [] := by
      intro hs
      rw [hs] at hr
      exact absurd hr (by simp)
    have := rstripChar_fixed_getLast c s h hne
    rw [hr] at this
    simpa using this

theorem take_two_q (p q2 : PyStr) (hp : p.take 2 ≠ lit "//")
    (hq : q2 = [] ∨ q2.headD ' ' = '?') : (p ++ q2).take 2 ≠ lit "//" := by
  rcases p with _ | ⟨x1, _ | ⟨x2, rest⟩⟩
  · rcases hq with rfl | hq
    · simp [lit]
    · rcases q2 with _ | ⟨y, ys⟩
      · simp [lit]
      · simp at hq
        subst hq
        simp [lit, List.take]
  · rcases hq with rfl | hq
    · exact hp
    · rcases q2 with _ | ⟨y, ys⟩
      · exact hp
      · simp at hq
        subst hq
        simp [lit, List.take]
  · exact hp

theorem tail_split_hash (P q3 : PyStr) (h1 : '#' ∉ P) (h3 : '#' ∉ q3) :
    splitOnFirst '#' (P ++ q3) = (P ++ q3, none) := by
  apply splitOnFirst_of_not_mem
  intro hc
  rcases List.mem_append.mp hc with hc | hc
  · exact h1 hc
  · exact h3 hc

/-! ## Idempotence infrastructure: evaluating `urlsplitPy` from component facts -/

theorem urlsplitPy_eq (url ds sc2 u1 nlv u2 u3 P Q F : PyStr)
    (h0 : sanitize url = url)
    (h1 : splitScheme url = some (sc2, u1) ∨
      (splitScheme url = none ∧ sc2 = ds ∧ u1 = url))
    (h2 : (u1.take 2 = lit "//" ∧
        (u1.drop 2).takeWhile (fun c => ¬ isNetlocDelim c) = nlv ∧
        (u1.drop 2).dropWhile (fun c => ¬ isNetlocDelim c) = u2) ∨
      (u1.take 2 ≠ lit "//" ∧ nlv = [] ∧ u2 = u1))
    (h3 : splitOnFirst '#' u2 = (u3, some F) ∨
      (splitOnFirst '#' u2 = (u3, none) ∧ F = []))
    (h4 : splitOnFirst '?' u3 = (P, some Q) ∨
      (splitOnFirst '?' u3 = (P, none) ∧ Q = [])) :
    urlsplitPy url ds = ⟨sc2, nlv, P, Q, F⟩ := by
  have step1 : urlsplitPy url ds =
      (let a := (if u1.take 2 = lit "//" then
          ((u1.drop 2).takeWhile (fun c => ¬ isNetlocDelim c),
           (u1.drop 2).dropWhile (fun c => ¬ isNetlocDelim c))
         else ([], u1))
       let b := (match splitOnFirst '#' a.2 with
         | (x, some y) => (x, y)
         | (x, none) => (x, []))
       let c := (match splitOnFirst '?' b.1 with
         | (x, some y) => (x, y)
         | (x, none) => (x, []))
       ⟨sc2, a.1, c.1, c.2, b.2⟩) := by
    rcases h1 with h1 | ⟨h1, rfl, rfl⟩
    · simp only [urlsplitPy, h0, h1]
    · simp only [urlsplitPy, h0, h1]
  rw [step1]
  rcases h2 with ⟨hc, hnl, hu2⟩ | ⟨hc, rfl, rfl⟩
  · simp only [if_pos hc, hnl, hu2]
    rcases h3 with h3 | ⟨h3, rfl⟩
    · simp only [h3]
      rcases h4 with h4 | ⟨h4, rfl⟩
      · simp only [h4]
      · simp only [h4]
    · simp only [h3]
      rcases h4 with h4 | ⟨h4, rfl⟩
      · simp only [h4]
      · simp only [h4]
  · simp only [if_neg hc]
    rcases h3 with h3 | ⟨h3, rfl⟩
    · simp only [h3]
      rcases h4 with h4 | ⟨h4, rfl⟩
      · simp only [h4]
      · simp only [h4]
    · simp only [h3]
      rcases h4 with h4 | ⟨h4, rfl⟩
      · simp only [h4]
      · simp only [h4]

/-! ## Idempotence infrastructure: evaluating `urlunsplitPy` -/

theorem unsplit_eval (sc nl p q : PyStr) :
    urlunsplitPy ⟨sc, nl, p, q, []⟩ =
      (let url1 := if nl ≠ [] ∨ (sc ≠ [] ∧ sc ∈ uses_netloc ∧ p.take 2 ≠ lit "//")
        then '/' :: '/' :: (nl ++ (if p ≠ [] ∧ p.take 1 ≠ lit "/" then '/' :: p else p))
        else p
       let url2 := if sc ≠ [] then sc ++ ':' :: url1 else url1
       if q ≠ [] then url2 ++ '?' :: q else url2) := rfl

theorem unsplit_no_unsafe (sc nl p q : PyStr)
    (Hs : ∀ c ∈ sc, isUnsafeByte c = false)
    (Hn : ∀ c ∈ nl, isUnsafeByte c = false)
    (Hp : ∀ c ∈ p, isUnsafeByte c = false)
    (Hq : ∀ c ∈ q, isUnsafeByte c = false) :
    ∀ c ∈ urlunsplitPy ⟨sc, nl, p, q, []⟩, isUnsafeByte c = false := by
  rw [unsplit_eval]
  have hin : ∀ c ∈ (if p ≠ [] ∧ p.take 1 ≠ lit "/" then '/' :: p else p),
      isUnsafeByte c = false := by
    by_cases h : p ≠ [] ∧ p.take 1 ≠ lit "/"
    · rw [if_pos h]
      intro c hc
      rcases List.mem_cons.mp hc with rfl | hc
      · decide
      · exact Hp c hc
    · rw [if_neg h]
      exact Hp
  have hurl1 : ∀ c ∈ (if nl ≠ [] ∨ (sc ≠ [] ∧ sc ∈ uses_netloc ∧ p.take 2 ≠ lit "//")
      then '/' :: '/' :: (nl ++ (if p ≠ [] ∧ p.take 1 ≠ lit "/" then '/' :: p else p))
      else p), isUnsafeByte c = false := by
    by_cases h : nl ≠ [] ∨ (sc ≠ [] ∧ sc ∈ uses_netloc ∧ p.take 2 ≠ lit "//")
    · rw [if_pos h]
      intro c hc
      rcases List.mem_cons.mp hc with rfl | hc
      · decide
      rcases List.mem_cons.mp hc with rfl | hc
      · decide
      rcases List.mem_append.mp hc with hc | hc
      · exact Hn c hc
      · exact hin c hc
    · rw [if_neg h]
      exact Hp
  show ∀ c ∈ _, _
  intro c hc
  simp only at hc
  by_cases hq : q ≠ []
  · rw [if_pos hq] at hc
    rcases List.mem_append.mp hc with hc | hc
    · by_cases hs : sc ≠ []
      · rw [if_pos hs] at hc
        rcases List.mem_append.mp hc with hc | hc
        · exact Hs c hc
        rcases List.mem_cons.mp hc with rfl | hc
        · decide
        · exact hurl1 c hc
      · rw [if_neg hs] at hc
        exact hurl1 c hc
    · rcases List.mem_cons.mp hc with rfl | hc
      · decide
      · exact Hq c hc
  · rw [if_neg hq] at hc
    by_cases hs : sc ≠ []
    · rw [if_pos hs] at hc
      rcases List.mem_append.mp hc with hc | hc
      · exact Hs c hc
      rcases List.mem_cons.mp hc with rfl | hc
      · decide
      · exact hurl1 c hc
    · rw [if_neg hs] at hc
      exact hurl1 c hc

theorem urlsplit_tail (v sc3 nl p q pq : PyStr)
    (h0 : sanitize v = v)
    (hpq : (q = [] ∧ pq = p) ∨ (q ≠ [] ∧ pq = p ++ '?' :: q))
    (h1 : splitScheme v = some (sc3, '/' :: '/' :: (nl ++ pq)) ∨
      (splitScheme v = none ∧ sc3 = [] ∧ '/' :: '/' :: (nl ++ pq) = v))
    (Hnl : ∀ c ∈ nl, isNetlocDelim c = false)
    (hphead : p = [] ∨ p.take 1 = lit "/")
    (Hp_hash : '#' ∉ p) (Hp_q : '?' ∉ p) (Hq_hash : '#' ∉ q) :
    urlsplitPy v [] = ⟨sc3, nl, p, q, []⟩ := by
  have hpq_hash : '#' ∉ pq := by
    rcases hpq with ⟨_, rfl⟩ | ⟨_, rfl⟩
    · exact Hp_hash
    · intro hc
      rcases List.mem_append.mp hc with hc | hc
      · exact Hp_hash hc
      rcases List.mem_cons.mp hc with hc | hc
      · exact absurd hc (by decide)
      · exact Hq_hash hc
  have hrest : pq = [] ∨
      ((fun c => ¬ isNetlocDelim c) : Char → Bool) (pq.headD ' ') = false := by
    rcases hphead with rfl | hp1
    · rcases hpq with ⟨_, rfl⟩ | ⟨_, rfl⟩
      · exact Or.inl rfl
      · right
        simp [isNetlocDelim]
    · rcases p with _ | ⟨x, xs⟩
      · exact absurd hp1 (by simp [lit])
      · have hx : x = '/' := by simpa [lit, List.take] using hp1
        subst hx
        right
        rcases hpq with ⟨_, rfl⟩ | ⟨_, rfl⟩
        · simp [isNetlocDelim]
        · simp [isNetlocDelim]
  have hmem : ∀ c ∈ nl, ((fun c => ¬ isNetlocDelim c) : Char → Bool) c = true :=
    fun c hc => by simp [Hnl c hc]
  have htw := takeWhile_append_all nl pq hmem hrest
  refine urlsplitPy_eq v [] sc3 ('/' :: '/' :: (nl ++ pq)) nl pq pq p q []
    h0 h1 ?_ ?_ ?_
  · left
    exact ⟨rfl, htw.1, htw.2⟩
  · right
    exact ⟨splitOnFirst_of_not_mem hpq_hash, rfl⟩
  · rcases hpq with ⟨hq, rfl⟩ | ⟨hq, rfl⟩
    · right
      exact ⟨splitOnFirst_of_not_mem Hp_q, hq⟩
    · left
      exact splitOnFirst_append_first q Hp_q

theorem urlsplit_tail_nonl (v sc3 p q pq : PyStr)
    (h0 : sanitize v = v)
    (hpq : (q = [] ∧ pq = p) ∨ (q ≠ [] ∧ pq = p ++ '?' :: q))
    (h1 : splitScheme v = some (sc3, pq) ∨
      (splitScheme v = none ∧ sc3 = [] ∧ pq = v))
    (hp2 : p.take 2 ≠ lit "//")
    (Hp_hash : '#' ∉ p) (Hp_q : '?' ∉ p) (Hq_hash : '#' ∉ q) :
    urlsplitPy v [] = ⟨sc3, [], p, q, []⟩ := by
  have hpq_hash : '#' ∉ pq := by
    rcases hpq with ⟨_, rfl⟩ | ⟨_, rfl⟩
    · exact Hp_hash
    · intro hc
      rcases List.mem_append.mp hc with hc | hc
      · exact Hp_hash hc
      rcases List.mem_cons.mp hc with hc | hc
      · exact absurd hc (by decide)
      · exact Hq_hash hc
  have hpq2 : pq.take 2 ≠ lit "//" := by
    rcases hpq with ⟨_, rfl⟩ | ⟨_, rfl⟩
    · exact hp2
    · exact take_two_q p ('?' :: q) hp2 (Or.inr rfl)
  refine urlsplitPy_eq v [] sc3 pq [] pq pq p q []
    h0 h1 ?_ ?_ ?_
  · right
    exact ⟨hpq2, rfl, rfl⟩
  · right
    exact ⟨splitOnFirst_of_not_mem hpq_hash, rfl⟩
  · rcases hpq with ⟨hq, rfl⟩ | ⟨hq, rfl⟩
    · right
      exact ⟨splitOnFirst_of_not_mem Hp_q, hq⟩
    · left
      exact splitOnFirst_append_first q Hp_q

theorem reparse_netloc (sc nl p q : PyStr)
    (Hsc : sc = [] ∨ (sc ≠ [] ∧ isAsciiAlpha (sc.headD ' ') = true ∧
      sc.all isSchemeChar = true ∧ pyLower sc = sc))
    (Hnl : ∀ c ∈ nl, isNetlocDelim c = false)
    (Hn_safe : ∀ c ∈ nl, isUnsafeByte c = false)
    (Hp_safe : ∀ c ∈ p, isUnsafeByte c = false)
    (Hq_safe : ∀ c ∈ q, isUnsafeByte c = false)
    (Hp_hash : '#' ∉ p) (Hp_q : '?' ∉ p) (Hq_hash : '#' ∉ q)
    (hnl : nl ≠ [])
    (hphead : p = [] ∨ p.take 1 = lit "/") :
    urlsplitPy (urlunsplitPy ⟨sc, nl, p, q, []⟩) [] = ⟨sc, nl, p, q, []⟩ := by
  have hscsafe : ∀ c ∈ sc, isUnsafeByte c = false := by
    rcases Hsc with rfl | ⟨_, _, hall, _⟩
    · intro c hc
      exact absurd hc (List.not_mem_nil c)
    · intro c hc
      exact schemeChar_not_unsafe c (List.all_eq_true.mp hall c hc)
  have hvsafe := unsplit_no_unsafe sc nl p q hscsafe Hn_safe Hp_safe Hq_safe
  have hpp : (if p ≠ [] ∧ p.take 1 ≠ lit "/" then '/' :: p else p) = p := by
    rcases hphead with rfl | h
    · rw [if_neg]
      intro hcon
      exact hcon.1 rfl
    · rw [if_neg]
      intro hcon
      exact hcon.2 h
  have hcond : nl ≠ [] ∨ (sc ≠ [] ∧ sc ∈ uses_netloc ∧ p.take 2 ≠ lit "//") :=
    Or.inl hnl
  by_cases hq : q = []
  · by_cases hs : sc = []
    · subst hs
      have hv : urlunsplitPy ⟨[], nl, p, q, []⟩ = '/' :: '/' :: (nl ++ p) := by
        simp only [unsplit_eval]
        rw [if_pos hcond, hpp, if_neg (not_not_intro hq), if_neg (not_not_intro rfl)]
      rw [hv] at hvsafe ⊢
      refine urlsplit_tail _ [] nl p q p ?_ (Or.inl ⟨hq, rfl⟩) ?_ Hnl hphead
        Hp_hash Hp_q Hq_hash
      · refine sanitize_fixed _ hvsafe (Or.inr ?_)
        show isC0OrSpace '/' = false
        decide
      · right
        refine ⟨?_, rfl, rfl⟩
        apply splitScheme_none_head
        show isAsciiAlpha '/' = false
        decide
    · rcases Hsc with hsc0 | ⟨hne, halpha, hall, hlow⟩
      · exact absurd hsc0 hs
      have hv : urlunsplitPy ⟨sc, nl, p, q, []⟩ =
          sc ++ ':' :: ('/' :: '/' :: (nl ++ p)) := by
        simp only [unsplit_eval]
        rw [if_pos hcond, hpp, if_neg (not_not_intro hq), if_pos hs]
      rw [hv] at hvsafe ⊢
      refine urlsplit_tail _ sc nl p q p ?_ (Or.inl ⟨hq, rfl⟩) ?_ Hnl hphead
        Hp_hash Hp_q Hq_hash
      · refine sanitize_fixed _ hvsafe (Or.inr ?_)
        rw [headD_append_left sc _ ' ' hne]
        exact alpha_not_C0 _ halpha
      · left
        rw [splitScheme_valid _ hne halpha hall, hlow]
  · by_cases hs : sc = []
    · subst hs
      have hv : urlunsplitPy ⟨[], nl, p, q, []⟩ =
          '/' :: '/' :: (nl ++ (p ++ '?' :: q)) := by
        simp only [unsplit_eval]
        rw [if_pos hcond, hpp, if_pos hq, if_neg (not_not_intro rfl)]
        simp [List.append_assoc]
      rw [hv] at hvsafe ⊢
      refine urlsplit_tail _ [] nl p q (p ++ '?' :: q) ?_ (Or.inr ⟨hq, rfl⟩) ?_
        Hnl hphead Hp_hash Hp_q Hq_hash
      · refine sanitize_fixed _ hvsafe (Or.inr ?_)
        show isC0OrSpace '/' = false
        decide
      · right
        refine ⟨?_, rfl, rfl⟩
        apply splitScheme_none_head
        show isAsciiAlpha '/' = false
        decide
    · rcases Hsc with hsc0 | ⟨hne, halpha, hall, hlow⟩
      · exact absurd hsc0 hs
      have hv : urlunsplitPy ⟨sc, nl, p, q, []⟩ =
          sc ++ ':' :: ('/' :: '/' :: (nl ++ (p ++ '?' :: q))) := by
        simp only [unsplit_eval]
        rw [if_pos hcond, hpp, if_pos hq, if_pos hs]
        simp [List.append_assoc]
      rw [hv] at hvsafe ⊢
      refine urlsplit_tail _ sc nl p q (p ++ '?' :: q) ?_ (Or.inr ⟨hq, rfl⟩) ?_
        Hnl hphead Hp_hash Hp_q Hq_hash
      · refine sanitize_fixed _ hvsafe (Or.inr ?_)
        rw [headD_append_left sc _ ' ' hne]
        exact alpha_not_C0 _ halpha
      · left
        rw [splitScheme_valid _ hne halpha hall, hlow]

theorem reparse_addslash (sc p q p2 : PyStr)
    (hne : sc ≠ []) (halpha : isAsciiAlpha (sc.headD ' ') = true)
    (hall : sc.all isSchemeChar = true) (hlow : pyLower sc = sc)
    (Hp_safe : ∀ c ∈ p, isUnsafeByte c = false)
    (Hq_safe : ∀ c ∈ q, isUnsafeByte c = false)
    (Hp_hash : '#' ∉ p) (Hp_q : '?' ∉ p) (Hq_hash : '#' ∉ q)
    (hnet : sc ∈ uses_netloc)
    (hp2 : p.take 2 ≠ lit "//")
    (hp2def : p2 = if p ≠ [] ∧ p.take 1 ≠ lit "/" then '/' :: p else p) :
    urlsplitPy (urlunsplitPy ⟨sc, [], p, q, []⟩) [] = ⟨sc, [], p2, q, []⟩ := by
  have hscsafe : ∀ c ∈ sc, isUnsafeByte c = false := fun c hc =>
    schemeChar_not_unsafe c (List.all_eq_true.mp hall c hc)
  have hvsafe := unsplit_no_unsafe sc [] p q hscsafe
    (fun c hc => absurd hc (List.not_mem_nil c)) Hp_safe Hq_safe
  have hp2head : p2 = [] ∨ p2.take 1 = lit "/" := by
    by_cases hc : p ≠ [] ∧ p.take 1 ≠ lit "/"
    · rw [hp2def, if_pos hc]
      exact Or.inr rfl
    · rw [hp2def, if_neg hc]
      by_cases hp0 : p = []
      · exact Or.inl hp0
      · right
        by_contra hcon
        exact hc ⟨hp0, hcon⟩
  have hp2hash : '#' ∉ p2 := by
    by_cases hc : p ≠ [] ∧ p.take 1 ≠ lit "/"
    · rw [hp2def, if_pos hc]
      intro hm
      rcases List.mem_cons.mp hm with hm | hm
      · exact absurd hm (by decide)
      · exact Hp_hash hm
    · rw [hp2def, if_neg hc]
      exact Hp_hash
  have hp2q : '?' ∉ p2 := by
    by_cases hc : p ≠ [] ∧ p.take 1 ≠ lit "/"
    · rw [hp2def, if_pos hc]
      intro hm
      rcases List.mem_cons.mp hm with hm | hm
      · exact absurd hm (by decide)
      · exact Hp_q hm
    · rw [hp2def, if_neg hc]
      exact Hp_q
  have hcond : ([] : PyStr) ≠ [] ∨ (sc ≠ [] ∧ sc ∈ uses_netloc ∧
      p.take 2 ≠ lit "//") := Or.inr ⟨hne, hnet, hp2⟩
  by_cases hq : q = []
  · have hv : urlunsplitPy ⟨sc, [], p, q, []⟩ =
        sc ++ ':' :: ('/' :: '/' :: p2) := by
      simp only [unsplit_eval]
      rw [if_pos hcond, ← hp2def, if_neg (not_not_intro hq), if_pos hne]
      simp
    rw [hv] at hvsafe ⊢
    refine urlsplit_tail _ sc [] p2 q p2 ?_ (Or.inl ⟨hq, rfl⟩) ?_
      (fun c hc => absurd hc (List.not_mem_nil c)) hp2head hp2hash hp2q Hq_hash
    · refine sanitize_fixed _ hvsafe (Or.inr ?_)
      rw [headD_append_left sc _ ' ' hne]
      exact alpha_not_C0 _ halpha
    · left
      rw [splitScheme_valid _ hne halpha hall, hlow]
      simp
  · have hv : urlunsplitPy ⟨sc, [], p, q, []⟩ =
        sc ++ ':' :: ('/' :: '/' :: (p2 ++ '?' :: q)) := by
      simp only [unsplit_eval]
      rw [if_pos hcond, ← hp2def, if_pos hq, if_pos hne]
      simp [List.append_assoc]
    rw [hv] at hvsafe ⊢
    refine urlsplit_tail _ sc [] p2 q (p2 ++ '?' :: q) ?_ (Or.inr ⟨hq, rfl⟩) ?_
      (fun c hc => absurd hc (List.not_mem_nil c)) hp2head hp2hash hp2q Hq_hash
    · refine sanitize_fixed _ hvsafe (Or.inr ?_)
      rw [headD_append_left sc _ ' ' hne]
      exact alpha_not_C0 _ halpha
    · left
      rw [splitScheme_valid _ hne halpha hall, hlow]
      simp

theorem reparse_plain (sc p q : PyStr)
    (Hsc : sc = [] ∨ (sc ≠ [] ∧ isAsciiAlpha (sc.headD ' ') = true ∧
      sc.all isSchemeChar = true ∧ pyLower sc = sc ∧ sc ∉ uses_netloc))
    (Hp_safe : ∀ c ∈ p, isUnsafeByte c = false)
    (Hq_safe : ∀ c ∈ q, isUnsafeByte c = false)
    (Hp_hash : '#' ∉ p) (Hp_q : '?' ∉ p) (Hq_hash : '#' ∉ q)
    (hp2 : p.take 2 ≠ lit "//")
    (Hp_head : sc = [] → p ≠ [] → isC0OrSpace (p.headD ' ') = false)
    (Hnos : sc = [] → splitScheme (if q = [] then p else p ++ '?' :: q) = none) :
    urlsplitPy (urlunsplitPy ⟨sc, [], p, q, []⟩) [] = ⟨sc, [], p, q, []⟩ := by
  have hscsafe : ∀ c ∈ sc, isUnsafeByte c = false := by
    rcases Hsc with rfl | ⟨_, _, hall, _, _⟩
    · intro c hc
      exact absurd hc (List.not_mem_nil c)
    · intro c hc
      exact schemeChar_not_unsafe c (List.all_eq_true.mp hall c hc)
  have hvsafe := unsplit_no_unsafe sc [] p q hscsafe
    (fun c hc => absurd hc (List.not_mem_nil c)) Hp_safe Hq_safe
  have hcond : ¬(([] : PyStr) ≠ [] ∨ (sc ≠ [] ∧ sc ∈ uses_netloc ∧
      p.take 2 ≠ lit "//")) := by
    intro hcon
    rcases hcon with hcon | ⟨hne, hnet, _⟩
    · exact hcon rfl
    · rcases Hsc with rfl | ⟨_, _, _, _, hnot⟩
      · exact hne rfl
      · exact hnot hnet
  by_cases hq : q = []
  · by_cases hs : sc = []
    · subst hs
      have hv : urlunsplitPy ⟨[], [], p, q, []⟩ = p := by
        simp only [unsplit_eval]
        rw [if_neg hcond, if_neg (not_not_intro hq), if_neg (not_not_intro rfl)]
      rw [hv] at hvsafe ⊢
      refine urlsplit_tail_nonl _ [] p q p ?_ (Or.inl ⟨hq, rfl⟩) ?_ hp2
        Hp_hash Hp_q Hq_hash
      · refine sanitize_fixed _ hvsafe ?_
        by_cases hp0 : p = []
        · exact Or.inl hp0
        · exact Or.inr (Hp_head rfl hp0)
      · right
        have := Hnos rfl
        rw [if_pos hq] at this
        exact ⟨this, rfl, rfl⟩
    · rcases Hsc with hsc0 | ⟨hne, halpha, hall, hlow, _⟩
      · exact absurd hsc0 hs
      have hv : urlunsplitPy ⟨sc, [], p, q, []⟩ = sc ++ ':' :: p := by
        simp only [unsplit_eval]
        rw [if_neg hcond, if_neg (not_not_intro hq), if_pos hs]
      rw [hv] at hvsafe ⊢
      refine urlsplit_tail_nonl _ sc p q p ?_ (Or.inl ⟨hq, rfl⟩) ?_ hp2
        Hp_hash Hp_q Hq_hash
      · refine sanitize_fixed _ hvsafe (Or.inr ?_)
        rw [headD_append_left sc _ ' ' hne]
        exact alpha_not_C0 _ halpha
      · left
        rw [splitScheme_valid _ hne halpha hall, hlow]
  · by_cases hs : sc = []
    · subst hs
      have hv : urlunsplitPy ⟨[], [], p, q, []⟩ = p ++ '?' :: q := by
        simp only [unsplit_eval]
        rw [if_neg hcond, if_pos hq, if_neg (not_not_intro rfl)]
      rw [hv] at hvsafe ⊢
      refine urlsplit_tail_nonl _ [] p q (p ++ '?' :: q) ?_ (Or.inr ⟨hq, rfl⟩)
        ?_ hp2 Hp_hash Hp_q Hq_hash
      · refine sanitize_fixed _ hvsafe ?_
        by_cases hp0 : p = []
        · subst hp0
          right
          show isC0OrSpace '?' = false
          decide
        · refine Or.inr ?_
          rw [headD_append_left p _ ' ' hp0]
          exact Hp_head rfl hp0
      · right
        have := Hnos rfl
        rw [if_neg hq] at this
        exact ⟨this, rfl, rfl⟩
    · rcases Hsc with hsc0 | ⟨hne, halpha, hall, hlow, _⟩
      · exact absurd hsc0 hs
      have hv : urlunsplitPy ⟨sc, [], p, q, []⟩ =
          sc ++ ':' :: (p ++ '?' :: q) := by
        simp only [unsplit_eval]
        rw [if_neg hcond, if_pos hq, if_pos hs]
        simp [List.append_assoc]
      rw [hv] at hvsafe ⊢
      refine urlsplit_tail_nonl _ sc p q (p ++ '?' :: q) ?_ (Or.inr ⟨hq, rfl⟩)
        ?_ hp2 Hp_hash Hp_q Hq_hash
      · refine sanitize_fixed _ hvsafe (Or.inr ?_)
        rw [headD_append_left sc _ ' ' hne]
        exact alpha_not_C0 _ halpha
      · left
        rw [splitScheme_valid _ hne halpha hall, hlow]

theorem head_append_left (a b : PyStr) (h : a ≠ []) :
    (a ++ b).head? = a.head? := by
  rcases a with _ | ⟨x, xs⟩
  · exact absurd rfl h
  · rfl

theorem urlparse_of_split (v : PyStr) (s : SplitResult)
    (h : urlsplitPy v [] = s) (hsemi : ';' ∉ s.path) :
    urlparsePy v [] = ⟨s.scheme, s.netloc, s.path, [], s.query, s.fragment⟩ := by
  simp only [urlparsePy]
  rw [h, if_neg (fun hcon => hsemi hcon.2)]

theorem normalize_of_parse (v : PyStr) (pr : ParseResult)
    (h : urlparsePy v [] = pr) :
    normalize_url v = urlunparsePy ⟨pr.scheme, pr.netloc,
      (if pr.path = lit "/" then lit "/" else rstripChar '/' pr.path),
      pr.params, pr.query, []⟩ := by
  simp only [normalize_url]
  rw [h]

theorem urlunparse_no_params (sc nl p q f : PyStr) :
    urlunparsePy ⟨sc, nl, p, [], q, f⟩ = urlunsplitPy ⟨sc, nl, p, q, f⟩ := by
  simp only [urlunparsePy]
  rw [if_neg (not_not_intro rfl)]

theorem normalize_unsplit_fixed (sc nl p q : PyStr)
    (Hsc : sc = [] ∨ (sc ≠ [] ∧ isAsciiAlpha (sc.headD ' ') = true ∧
      sc.all isSchemeChar = true ∧ pyLower sc = sc))
    (Hnl : ∀ c ∈ nl, isNetlocDelim c = false)
    (Hn_safe : ∀ c ∈ nl, isUnsafeByte c = false)
    (Hp_safe : ∀ c ∈ p, isUnsafeByte c = false)
    (Hq_safe : ∀ c ∈ q, isUnsafeByte c = false)
    (Hp_hash : '#' ∉ p) (Hp_q : '?' ∉ p) (Hp_semi : ';' ∉ p) (Hq_hash : '#' ∉ q)
    (Hp_nl : nl ≠ [] → p = [] ∨ p.take 1 = lit "/")
    (Hp_nonl : nl = [] → p.take 2 ≠ lit "//")
    (Hp_head : sc = [] → nl = [] → p ≠ [] → isC0OrSpace (p.headD ' ') = false)
    (Hnos : sc = [] → nl = [] →
      splitScheme (if q = [] then p else p ++ '?' :: q) = none)
    (Hp_stable : p = lit "/" ∨ rstripChar '/' p = p) :
    normalize_url (urlunsplitPy ⟨sc, nl, p, q, []⟩) =
      urlunsplitPy ⟨sc, nl, p, q, []⟩ := by
  have hpfix : (if p = lit "/" then lit "/" else rstripChar '/' p) = p := by
    by_cases hps : p = lit "/"
    · rw [if_pos hps, hps]
    · rw [if_neg hps]
      rcases Hp_stable with h | h
      · exact absurd h hps
      · exact h
  by_cases hnl : nl = []
  · subst hnl
    by_cases hnet : sc ≠ [] ∧ sc ∈ uses_netloc
    · rcases Hsc with hsc0 | ⟨hne, halpha, hall, hlow⟩
      · exact absurd hsc0 hnet.1
      have hsp := reparse_addslash sc p q _ hne halpha hall hlow Hp_safe Hq_safe
        Hp_hash Hp_q Hq_hash hnet.2 (Hp_nonl rfl) rfl
      by_cases hc : p ≠ [] ∧ p.take 1 ≠ lit "/"
      · rw [if_pos hc] at hsp
        have hsemi2 : ';' ∉ '/' :: p := by
          intro hm
          rcases List.mem_cons.mp hm with hm | hm
          · exact absurd hm (by decide)
          · exact Hp_semi hm
        have hpr := urlparse_of_split _ _ hsp hsemi2
        rw [normalize_of_parse _ _ hpr]
        show urlunparsePy ⟨sc, [],
          (if '/' :: p = lit "/" then lit "/" else rstripChar '/' ('/' :: p)),
          [], q, []⟩ = _
        rw [urlunparse_no_params]
        have hfix2 : (if '/' :: p = lit "/" then lit "/"
            else rstripChar '/' ('/' :: p)) = '/' :: p := by
          rw [if_neg]
          · apply rstripChar_eq_self
            rw [List.reverse_cons, head_append_left _ _ (by simpa using hc.1)]
            apply rstripChar_fixed_head
            rcases Hp_stable with h | h
            · exact absurd (by rw [h]; decide) hc.2
            · exact h
          · intro hcon
            have hp0 : p = [] := by simpa [lit] using hcon
            exact hc.1 hp0
        rw [hfix2]
        rcases hp : p with _ | ⟨x, xs⟩
        · exact absurd hp hc.1
        have hx : ¬ x = '/' := by
          intro hxe
          apply hc.2
          rw [hp, hxe]
          rfl
        have hcondL : ([] : PyStr) ≠ [] ∨ (sc ≠ [] ∧ sc ∈ uses_netloc ∧
            ('/' :: x :: xs).take 2 ≠ lit "//") := by
          refine Or.inr ⟨hne, hnet.2, ?_⟩
          simp [lit, List.take]
          intro hxe
          exact absurd hxe hx
        have hcondR : ([] : PyStr) ≠ [] ∨ (sc ≠ [] ∧ sc ∈ uses_netloc ∧
            (x :: xs).take 2 ≠ lit "//") := by
          refine Or.inr ⟨hne, hnet.2, ?_⟩
          rw [← hp]
          exact Hp_nonl rfl
        have hinner : ¬('/' :: x :: xs ≠ [] ∧
            ('/' :: x :: xs).take 1 ≠ lit "/") := by
          intro hcon
          exact hcon.2 rfl
        have hcR : x :: xs ≠ [] ∧ (x :: xs).take 1 ≠ lit "/" := by
          rw [← hp]
          exact hc
        by_cases hq : q = []
        · have e1 : urlunsplitPy ⟨sc, [], '/' :: x :: xs, q, []⟩ =
              sc ++ ':' :: ('/' :: '/' :: ('/' :: x :: xs)) := by
            simp only [unsplit_eval]
            rw [if_pos hcondL, if_neg hinner, if_neg (not_not_intro hq),
              if_pos hne]
            simp
          have e2 : urlunsplitPy ⟨sc, [], x :: xs, q, []⟩ =
              sc ++ ':' :: ('/' :: '/' :: ('/' :: x :: xs)) := by
            simp only [unsplit_eval]
            rw [if_pos hcondR, if_pos hcR, if_neg (not_not_intro hq),
              if_pos hne]
            simp
          rw [e1, e2]
        · have e1 : urlunsplitPy ⟨sc, [], '/' :: x :: xs, q, []⟩ =
              sc ++ ':' :: ('/' :: '/' :: ('/' :: x :: xs) ++ '?' :: q) := by
            simp only [unsplit_eval]
            rw [if_pos hcondL, if_neg hinner, if_pos hq, if_pos hne]
            simp
          have e2 : urlunsplitPy ⟨sc, [], x :: xs, q, []⟩ =
              sc ++ ':' :: ('/' :: '/' :: ('/' :: x :: xs) ++ '?' :: q) := by
            simp only [unsplit_eval]
            rw [if_pos hcondR, if_pos hcR, if_pos hq, if_pos hne]
            simp
          rw [e1, e2]
      · rw [if_neg hc] at hsp
        have hpr := urlparse_of_split _ _ hsp Hp_semi
        rw [normalize_of_parse _ _ hpr]
        show urlunparsePy ⟨sc, [],
          (if p = lit "/" then lit "/" else rstripChar '/' p), [], q, []⟩ = _
        rw [urlunparse_no_params, hpfix]
    · have Hsc3 : sc = [] ∨ (sc ≠ [] ∧ isAsciiAlpha (sc.headD ' ') = true ∧
          sc.all isSchemeChar = true ∧ pyLower sc = sc ∧ sc ∉ uses_netloc) := by
        rcases Hsc with hsc0 | ⟨hne, halpha, hall, hlow⟩
        · exact Or.inl hsc0
        · right
          refine ⟨hne, halpha, hall, hlow, ?_⟩
          intro hmem
          exact hnet ⟨hne, hmem⟩
      have hsp := reparse_plain sc p q Hsc3 Hp_safe Hq_safe Hp_hash Hp_q Hq_hash
        (Hp_nonl rfl) (fun h1 h2 => Hp_head h1 rfl h2) (fun h1 => Hnos h1 rfl)
      have hpr := urlparse_of_split _ _ hsp Hp_semi
      rw [normalize_of_parse _ _ hpr]
      show urlunparsePy ⟨sc, [],
        (if p = lit "/" then lit "/" else rstripChar '/' p), [], q, []⟩ = _
      rw [urlunparse_no_params, hpfix]
  · have hsp := reparse_netloc sc nl p q Hsc Hnl Hn_safe Hp_safe Hq_safe
      Hp_hash Hp_q Hq_hash hnl (Hp_nl hnl)
    have hpr := urlparse_of_split _ _ hsp Hp_semi
    rw [normalize_of_parse _ _ hpr]
    show urlunparsePy ⟨sc, nl,
      (if p = lit "/" then lit "/" else rstripChar '/' p), [], q, []⟩ = _
    rw [urlunparse_no_params, hpfix]

theorem urlsplitPy_eq_gen (url ds u0 sc2 u1 nlv u2 u3 P Q F : PyStr)
    (h0 : sanitize url = u0)
    (h1 : splitScheme u0 = some (sc2, u1) ∨
      (splitScheme u0 = none ∧ sc2 = ds ∧ u1 = u0))
    (h2 : (u1.take 2 = lit "//" ∧
        (u1.drop 2).takeWhile (fun c => ¬ isNetlocDelim c) = nlv ∧
        (u1.drop 2).dropWhile (fun c => ¬ isNetlocDelim c) = u2) ∨
      (u1.take 2 ≠ lit "//" ∧ nlv = [] ∧ u2 = u1))
    (h3 : splitOnFirst '#' u2 = (u3, some F) ∨
      (splitOnFirst '#' u2 = (u3, none) ∧ F = []))
    (h4 : splitOnFirst '?' u3 = (P, some Q) ∨
      (splitOnFirst '?' u3 = (P, none) ∧ Q = [])) :
    urlsplitPy url ds = ⟨sc2, nlv, P, Q, F⟩ := by
  have step1 : urlsplitPy url ds =
      (let a := (if u1.take 2 = lit "//" then
          ((u1.drop 2).takeWhile (fun c => ¬ isNetlocDelim c),
           (u1.drop 2).dropWhile (fun c => ¬ isNetlocDelim c))
         else ([], u1))
       let b := (match splitOnFirst '#' a.2 with
         | (x, some y) => (x, y)
         | (x, none) => (x, []))
       let c := (match splitOnFirst '?' b.1 with
         | (x, some y) => (x, y)
         | (x, none) => (x, []))
       ⟨sc2, a.1, c.1, c.2, b.2⟩) := by
    rcases h1 with h1 | ⟨h1, rfl, rfl⟩
    · simp only [urlsplitPy, h0, h1]
    · simp only [urlsplitPy, h0, h1]
  rw [step1]
  rcases h2 with ⟨hc, hnl, hu2⟩ | ⟨hc, rfl, rfl⟩
  · simp only [if_pos hc, hnl, hu2]
    rcases h3 with h3 | ⟨h3, rfl⟩
    · simp only [h3]
      rcases h4 with h4 | ⟨h4, rfl⟩
      · simp only [h4]
      · simp only [h4]
    · simp only [h3]
      rcases h4 with h4 | ⟨h4, rfl⟩
      · simp only [h4]
      · simp only [h4]
  · simp only [if_neg hc]
    rcases h3 with h3 | ⟨h3, rfl⟩
    · simp only [h3]
      rcases h4 with h4 | ⟨h4, rfl⟩
      · simp only [h4]
      · simp only [h4]
    · simp only [h3]
      rcases h4 with h4 | ⟨h4, rfl⟩
      · simp only [h4]
      · simp only [h4]

theorem urlsplit_elim_aux (u ds sc2 nlv u2 u1 : PyStr)
    (h1 : splitScheme (sanitize u) = some (sc2, u1) ∨
      (splitScheme (sanitize u) = none ∧ sc2 = ds ∧ u1 = sanitize u))
    (h2 : (u1.take 2 = lit "//" ∧
        (u1.drop 2).takeWhile (fun c => ¬ isNetlocDelim c) = nlv ∧
        (u1.drop 2).dropWhile (fun c => ¬ isNetlocDelim c) = u2) ∨
      (u1.take 2 ≠ lit "//" ∧ nlv = [] ∧ u2 = u1)) :
    urlsplitPy u ds = ⟨sc2, nlv, (splitOnFirst '?' ((splitOnFirst '#' u2).1)).1,
      ((splitOnFirst '?' ((splitOnFirst '#' u2).1)).2).getD [],
      ((splitOnFirst '#' u2).2).getD []⟩ := by
  rcases h3 : splitOnFirst '#' u2 with ⟨u3v, _ | fv⟩
  · rcases h4 : splitOnFirst '?' u3v with ⟨pv, _ | qv⟩
    · exact urlsplitPy_eq_gen u ds (sanitize u) sc2 u1 nlv u2 u3v pv [] []
        rfl h1 h2 (Or.inr ⟨h3, rfl⟩) (Or.inr ⟨h4, rfl⟩)
    · exact urlsplitPy_eq_gen u ds (sanitize u) sc2 u1 nlv u2 u3v pv qv []
        rfl h1 h2 (Or.inr ⟨h3, rfl⟩) (Or.inl h4)
  · rcases h4 : splitOnFirst '?' u3v with ⟨pv, _ | qv⟩
    · exact urlsplitPy_eq_gen u ds (sanitize u) sc2 u1 nlv u2 u3v pv [] fv
        rfl h1 h2 (Or.inl h3) (Or.inr ⟨h4, rfl⟩)
    · exact urlsplitPy_eq_gen u ds (sanitize u) sc2 u1 nlv u2 u3v pv qv fv
        rfl h1 h2 (Or.inl h3) (Or.inl h4)

theorem urlsplit_elim (u ds : PyStr) : ∃ u1 u2,
    (splitScheme (sanitize u) = some ((urlsplitPy u ds).scheme, u1) ∨
      (splitScheme (sanitize u) = none ∧ (urlsplitPy u ds).scheme = ds ∧
        u1 = sanitize u)) ∧
    ((u1.take 2 = lit "//" ∧
        (urlsplitPy u ds).netloc =
          (u1.drop 2).takeWhile (fun c => ¬ isNetlocDelim c) ∧
        u2 = (u1.drop 2).dropWhile (fun c => ¬ isNetlocDelim c)) ∨
      (¬ u1.take 2 = lit "//" ∧ (urlsplitPy u ds).netloc = [] ∧ u2 = u1)) ∧
    (urlsplitPy u ds).path = (splitOnFirst '?' ((splitOnFirst '#' u2).1)).1 ∧
    (urlsplitPy u ds).query =
      ((splitOnFirst '?' ((splitOnFirst '#' u2).1)).2).getD [] := by
  rcases hss : splitScheme (sanitize u) with _ | ⟨s, rest⟩
  · by_cases h2 : (sanitize u).take 2 = lit "//"
    · refine ⟨sanitize u,
        ((sanitize u).drop 2).dropWhile (fun c => ¬ isNetlocDelim c), ?_⟩
      have hrec := urlsplit_elim_aux u ds ds
        (((sanitize u).drop 2).takeWhile (fun c => ¬ isNetlocDelim c))
        (((sanitize u).drop 2).dropWhile (fun c => ¬ isNetlocDelim c))
        (sanitize u) (Or.inr ⟨hss, rfl, rfl⟩) (Or.inl ⟨h2, rfl, rfl⟩)
      rw [hrec]
      exact ⟨Or.inr ⟨rfl, rfl, rfl⟩, Or.inl ⟨h2, rfl, rfl⟩, rfl, rfl⟩
    · refine ⟨sanitize u, sanitize u, ?_⟩
      have hrec := urlsplit_elim_aux u ds ds [] (sanitize u) (sanitize u)
        (Or.inr ⟨hss, rfl, rfl⟩) (Or.inr ⟨h2, rfl, rfl⟩)
      rw [hrec]
      exact ⟨Or.inr ⟨rfl, rfl, rfl⟩, Or.inr ⟨h2, rfl, rfl⟩, rfl, rfl⟩
  · by_cases h2 : rest.take 2 = lit "//"
    · refine ⟨rest,
        (rest.drop 2).dropWhile (fun c => ¬ isNetlocDelim c), ?_⟩
      have hrec := urlsplit_elim_aux u ds s
        ((rest.drop 2).takeWhile (fun c => ¬ isNetlocDelim c))
        ((rest.drop 2).dropWhile (fun c => ¬ isNetlocDelim c))
        rest (Or.inl hss) (Or.inl ⟨h2, rfl, rfl⟩)
      rw [hrec]
      exact ⟨Or.inl rfl, Or.inl ⟨h2, rfl, rfl⟩, rfl, rfl⟩
    · refine ⟨rest, rest, ?_⟩
      have hrec := urlsplit_elim_aux u ds s [] rest rest
        (Or.inl hss) (Or.inr ⟨h2, rfl, rfl⟩)
      rw [hrec]
      exact ⟨Or.inl rfl, Or.inr ⟨h2, rfl, rfl⟩, rfl, rfl⟩

theorem mem_of_pre {x : Char} {a s : PyStr} (h : a <+: s) (hm : x ∈ a) :
    x ∈ s := by
  rcases h with ⟨t, rfl⟩
  exact List.mem_append_left _ hm

theorem mem_splitOnFirst_snd {c x : Char} {w : PyStr}
    (h : x ∈ ((splitOnFirst c w).2).getD []) : x ∈ w := by
  rcases hw : (splitOnFirst c w).2 with _ | b
  · rw [hw] at h
    exact absurd h (List.not_mem_nil x)
  · rw [hw] at h
    have hspec := splitOnFirst_spec (s := w) (by rw [← hw])
    rw [hspec.1]
    exact List.mem_append_right _ (List.mem_cons_of_mem _ h)

theorem not_mem_splitOnFirst_snd {c d : Char} {w : PyStr} (h : d ∉ w) :
    d ∉ ((splitOnFirst c w).2).getD [] :=
  fun hm => h (mem_splitOnFirst_snd hm)

theorem path_of_delim_head (u2 : PyStr)
    (h : u2 = [] ∨ isNetlocDelim (u2.headD ' ') = true) :
    (splitOnFirst '?' ((splitOnFirst '#' u2).1)).1 = [] ∨
      ((splitOnFirst '?' ((splitOnFirst '#' u2).1)).1).take 1 = lit "/" := by
  rcases h with rfl | h
  · exact Or.inl rfl
  · rcases u2 with _ | ⟨c, rest⟩
    · exact Or.inl rfl
    · simp only [List.headD_cons, isNetlocDelim, Bool.or_eq_true,
        decide_eq_true_eq] at h
      rcases h with (h | h) | h
      · subst h
        right
        have h1 : (splitOnFirst '#' ('/' :: rest)).1 =
            '/' :: (splitOnFirst '#' rest).1 := by
          simp [splitOnFirst]
        rw [h1]
        have h2 : (splitOnFirst '?' ('/' :: (splitOnFirst '#' rest).1)).1 =
            '/' :: (splitOnFirst '?' ((splitOnFirst '#' rest).1)).1 := by
          simp [splitOnFirst]
        rw [h2]
        rfl
      · subst h
        left
        have h1 : (splitOnFirst '#' ('?' :: rest)).1 =
            '?' :: (splitOnFirst '#' rest).1 := by
          simp [splitOnFirst]
        rw [h1]
        simp [splitOnFirst]
      · subst h
        left
        have h1 : splitOnFirst '#' ('#' :: rest) = ([], some rest) := by
          simp [splitOnFirst]
        rw [h1]
        rfl

theorem urlsplit_decompose (u : PyStr) :
    ((urlsplitPy u []).scheme = [] ∨
      ((urlsplitPy u []).scheme ≠ [] ∧
        isAsciiAlpha ((urlsplitPy u []).scheme.headD ' ') = true ∧
        (urlsplitPy u []).scheme.all isSchemeChar = true ∧
        pyLower ((urlsplitPy u []).scheme) = (urlsplitPy u []).scheme)) ∧
    (∀ c ∈ (urlsplitPy u []).netloc, isNetlocDelim c = false ∧ c ∈ sanitize u) ∧
    ('#' ∉ (urlsplitPy u []).path ∧ '?' ∉ (urlsplitPy u []).path ∧
      ∀ c ∈ (urlsplitPy u []).path, c ∈ sanitize u) ∧
    ('#' ∉ (urlsplitPy u []).query ∧
      ∀ c ∈ (urlsplitPy u []).query, c ∈ sanitize u) ∧
    (((urlsplitPy u []).path = [] ∨ (urlsplitPy u []).path.take 1 = lit "/") ∨
      ((urlsplitPy u []).netloc = [] ∧ ((urlsplitPy u []).scheme = [] →
        (urlsplitPy u []).path <+: sanitize u ∧
        splitScheme (sanitize u) = none))) := by
  obtain ⟨u1, u2, hC1, hC2, hP, hQ⟩ := urlsplit_elim u []
  have hu1mem : ∀ c ∈ u1, c ∈ sanitize u := by
    rcases hC1 with hC1 | ⟨_, _, rfl⟩
    · obtain ⟨pre, hu, _, _, _, _⟩ := splitScheme_some_spec hC1
      intro c hc
      rw [hu]
      exact List.mem_append_right _ (List.mem_cons_of_mem _ hc)
    · exact fun c hc => hc
  have hu2mem : ∀ c ∈ u2, c ∈ u1 := by
    rcases hC2 with ⟨_, _, rfl⟩ | ⟨_, _, rfl⟩
    · intro c hc
      exact List.drop_subset _ _ ((List.dropWhile_suffix _).subset hc)
    · exact fun c hc => hc
  have hu3pre : (splitOnFirst '#' u2).1 <+: u2 := splitOnFirst_fst_pre '#' u2
  have hpathpre : (urlsplitPy u []).path <+: (splitOnFirst '#' u2).1 := by
    rw [hP]
    exact splitOnFirst_fst_pre '?' _
  have hu3hash : '#' ∉ (splitOnFirst '#' u2).1 := not_mem_splitOnFirst_fst '#' u2
  refine ⟨?_, ?_, ⟨?_, ?_, ?_⟩, ⟨?_, ?_⟩, ?_⟩
  · rcases hC1 with hC1 | ⟨_, hsc, _⟩
    · obtain ⟨pre, _, hs, hne, halpha, hall⟩ := splitScheme_some_spec hC1
      right
      refine ⟨by rw [hs]; exact pyLower_ne_nil hne, ?_, ?_, ?_⟩
      · rw [hs, pyLower_headD _ hne]
        exact lowerChar_alpha _ halpha
      · rw [hs]
        exact pyLower_all_scheme hall
      · rw [hs]
        exact pyLower_idem pre
    · exact Or.inl hsc
  · rcases hC2 with ⟨_, hnlv, _⟩ | ⟨_, hnlv, _⟩
    · intro c hc
      rw [hnlv] at hc
      constructor
      · have := List.mem_takeWhile_imp hc
        simpa using this
      · exact hu1mem c (List.drop_subset _ _ ((List.takeWhile_prefix _).subset hc))
    · intro c hc
      rw [hnlv] at hc
      exact absurd hc (List.not_mem_nil c)
  · exact fun hm => hu3hash (mem_of_pre hpathpre hm)
  · rw [hP]
    exact not_mem_splitOnFirst_fst '?' _
  · intro c hc
    exact hu1mem c (hu2mem c (mem_of_pre hu3pre (mem_of_pre hpathpre hc)))
  · rw [hQ]
    exact not_mem_splitOnFirst_snd hu3hash
  · intro c hc
    rw [hQ] at hc
    exact hu1mem c (hu2mem c (mem_of_pre hu3pre (mem_splitOnFirst_snd hc)))
  · rcases hC2 with ⟨ht2, hnlv, hu2d⟩ | ⟨ht2, hnlv, hu2e⟩
    · left
      have hh : u2 = [] ∨ isNetlocDelim (u2.headD ' ') = true := by
        by_cases hne : u2 = []
        · exact Or.inl hne
        · right
          have hstep := dropWhile_head_not (u1.drop 2)
            (show (u1.drop 2).dropWhile (fun c => ¬ isNetlocDelim c) ≠ []
              from by rw [← hu2d]; exact hne)
          rw [← hu2d] at hstep
          simpa using hstep
      rw [hP]
      exact path_of_delim_head u2 hh
    · right
      refine ⟨hnlv, fun hsc0 => ?_⟩
      rcases hC1 with hC1 | ⟨hnone, _, hu1e⟩
      · exact absurd hsc0 (splitScheme_some_ne_nil hC1)
      · refine ⟨?_, hnone⟩
        rw [← hu1e, ← hu2e]
        exact hpathpre.trans hu3pre
theorem splitScheme_none_of_snd {v : PyStr} (h : (splitOnFirst ':' v).2 = none) :
    splitScheme v = none :=
  splitScheme_none_of_no_colon (splitOnFirst_none_not_mem h)

theorem splitScheme_slash_head (p q : PyStr)
    (hp : p = [] ∨ p.take 1 = lit "/") :
    splitScheme (if q = [] then p else p ++ '?' :: q) = none := by
  by_cases hq : q = []
  · rw [if_pos hq]
    rcases hp with rfl | hp
    · rfl
    · rcases p with _ | ⟨x, xs⟩
      · rfl
      · have hx : x = '/' := by simpa [lit, List.take] using hp
        subst hx
        apply splitScheme_none_head
        show isAsciiAlpha '/' = false
        decide
  · rw [if_neg hq]
    rcases hp with rfl | hp
    · apply splitScheme_none_head
      show isAsciiAlpha '?' = false
      decide
    · rcases p with _ | ⟨x, xs⟩
      · apply splitScheme_none_head
        show isAsciiAlpha '?' = false
        decide
      · have hx : x = '/' := by simpa [lit, List.take] using hp
        subst hx
        apply splitScheme_none_head
        show isAsciiAlpha '/' = false
        decide

theorem splitScheme_transfer (U p q : PyStr)
    (hU : splitScheme U = none)
    (hpre : p <+: U) :
    splitScheme (if q = [] then p else p ++ '?' :: q) = none := by
  by_cases hcol : ':' ∈ p
  · obtain ⟨b, hb⟩ := splitOnFirst_snd_some_of_mem hcol
    rcases hsp0 : splitOnFirst ':' p with ⟨pre, ropt⟩
    have hro : ropt = some b := by
      rw [hsp0] at hb
      exact hb
    subst hro
    have hspec := splitOnFirst_spec (s := p) hsp0
    obtain ⟨t, hUeq⟩ := hpre
    have hU1 : splitOnFirst ':' U = (pre, some (b ++ t)) := by
      rw [← hUeq, hspec.1, List.append_assoc, List.cons_append]
      exact splitOnFirst_append_first _ hspec.2
    have hbad := splitScheme_none_cases hU
    rw [hU1] at hbad
    have hbad2 : pre = [] ∨ isAsciiAlpha (pre.headD ' ') = false ∨
        ¬ pre.all isSchemeChar = true := by
      rcases hbad with hbad | hbad
      · exact absurd hbad (by simp)
      · exact hbad
    by_cases hq : q = []
    · rw [if_pos hq]
      apply splitScheme_eq_none_of_fst
      rw [hsp0]
      exact hbad2
    · rw [if_neg hq]
      apply splitScheme_eq_none_of_fst
      have hsp2 : splitOnFirst ':' (p ++ '?' :: q) =
          (pre, some (b ++ '?' :: q)) := by
        rw [hspec.1, List.append_assoc, List.cons_append]
        exact splitOnFirst_append_first _ hspec.2
      rw [hsp2]
      exact hbad2
  · by_cases hq : q = []
    · rw [if_pos hq]
      exact splitScheme_none_of_no_colon hcol
    · rw [if_neg hq]
      have hsp3 := splitOnFirst_append_of_not_mem (c := ':') ('?' :: q) hcol
      rcases hc2 : (splitOnFirst ':' ('?' :: q)).2 with _ | c2
      · apply splitScheme_none_of_snd
        rw [hsp3, hc2]
      · apply splitScheme_eq_none_of_fst
        right
        right
        rw [hsp3]
        intro hall
        have hq1 : (splitOnFirst ':' ('?' :: q)).1 =
            '?' :: (splitOnFirst ':' q).1 := by
          simp [splitOnFirst]
        have hqm : '?' ∈ (p ++ (splitOnFirst ':' ('?' :: q)).1) := by
          rw [hq1]
          exact List.mem_append_right _ (List.mem_cons_self _ _)
        have := List.all_eq_true.mp hall '?' hqm
        exact absurd this (by decide)

/-- C6: URL normalization is idempotent on every URL whose parse has no
semicolon in the path and does not hit the empty-netloc-double-slash
ambiguity of `urlunsplit`: for such `u`,
`normalize_url (normalize_url u) = normalize_url u`. -/
theorem c6_normalize_idempotent (u : PyStr)
    (H1 : ';' ∉ (urlsplitPy u []).path)
    (H2 : ¬((urlsplitPy u []).netloc = [] ∧
      (urlsplitPy u []).path.take 2 = lit "//")) :
    normalize_url (normalize_url u) = normalize_url u := by
  obtain ⟨HA, HB, ⟨Hph, Hpq2, Hpm⟩, ⟨Hqh, Hqm⟩, HD⟩ := urlsplit_decompose u
  have hpr := urlparse_of_split u (urlsplitPy u []) rfl H1
  have hN : normalize_url u = urlunsplitPy ⟨(urlsplitPy u []).scheme,
      (urlsplitPy u []).netloc,
      (if (urlsplitPy u []).path = lit "/" then lit "/"
        else rstripChar '/' ((urlsplitPy u []).path)),
      (urlsplitPy u []).query, []⟩ := by
    rw [normalize_of_parse u _ hpr]
    exact urlunparse_no_params _ _ _ _ _
  have hpfixpre : (if (urlsplitPy u []).path = lit "/" then lit "/"
      else rstripChar '/' ((urlsplitPy u []).path)) <+: (urlsplitPy u []).path := by
    by_cases hps : (urlsplitPy u []).path = lit "/"
    · rw [if_pos hps, hps]
    · rw [if_neg hps]
      exact rstripChar_pre '/' _
  have htrans : ((urlsplitPy u []).path = [] ∨
      (urlsplitPy u []).path.take 1 = lit "/") →
      ((if (urlsplitPy u []).path = lit "/" then lit "/"
        else rstripChar '/' ((urlsplitPy u []).path)) = [] ∨
       (if (urlsplitPy u []).path = lit "/" then lit "/"
        else rstripChar '/' ((urlsplitPy u []).path)).take 1 = lit "/") := by
    intro hd
    rcases hd with hp0 | hp1
    · left
      rw [if_neg (by rw [hp0]; decide), hp0]
      rfl
    · by_cases hps : (urlsplitPy u []).path = lit "/"
      · right
        rw [if_pos hps]
        decide
      · by_cases h0 : rstripChar '/' ((urlsplitPy u []).path) = []
        · left
          rw [if_neg hps]
          exact h0
        · right
          rw [if_neg hps]
          have hpne : (urlsplitPy u []).path ≠ [] := by
            intro h1
            rw [h1] at hp1
            exact absurd hp1 (by decide)
          have hhd : (urlsplitPy u []).path.headD ' ' = '/' := by
            have ht1 := take_one_headD _ hpne
            rw [ht1] at hp1
            simpa [lit] using hp1
          rw [take_one_headD _ h0,
            prefix_headD (rstripChar_pre '/' _) h0 ' ', hhd]
          rfl
  rw [hN]
  apply normalize_unsplit_fixed
  · exact HA
  · exact fun c hc => (HB c hc).1
  · exact fun c hc => sanitize_no_unsafe u c (HB c hc).2
  · exact fun c hc => sanitize_no_unsafe u c (Hpm c (mem_of_pre hpfixpre hc))
  · exact fun c hc => sanitize_no_unsafe u c (Hqm c hc)
  · exact fun hm => Hph (mem_of_pre hpfixpre hm)
  · exact fun hm => Hpq2 (mem_of_pre hpfixpre hm)
  · exact fun hm => H1 (mem_of_pre hpfixpre hm)
  · exact Hqh
  · intro hnl
    rcases HD with HD | ⟨hnl0, _⟩
    · exact htrans HD
    · exact absurd hnl0 hnl
  · intro hnl0 hcon
    exact H2 ⟨hnl0, prefix_take_two hpfixpre hcon⟩
  · intro hsc0 hnl0 hne
    rw [prefix_headD hpfixpre hne ' ']
    have hpne : (urlsplitPy u []).path ≠ [] := by
      intro h1
      apply hne
      rw [if_neg (by rw [h1]; decide), h1]
      rfl
    rcases HD with HD | ⟨_, himp⟩
    · rcases HD with hp0 | hp1
      · exact absurd hp0 hpne
      · have hhd : (urlsplitPy u []).path.headD ' ' = '/' := by
          have ht1 := take_one_headD _ hpne
          rw [ht1] at hp1
          simpa [lit] using hp1
        rw [hhd]
        decide
    · obtain ⟨hpfx, _⟩ := himp hsc0
      have hsne : sanitize u ≠ [] := by
        intro h1
        rw [h1] at hpfx
        exact hpne (List.prefix_nil.mp hpfx)
      rw [prefix_headD hpfx hpne ' ']
      exact sanitize_head_not_C0 u hsne
  · intro hsc0 hnl0
    rcases HD with HD | ⟨_, himp⟩
    · exact splitScheme_slash_head _ _ (htrans HD)
    · obtain ⟨hpfx, hnone⟩ := himp hsc0
      exact splitScheme_transfer (sanitize u) _ _ hnone (hpfixpre.trans hpfx)
  · by_cases hps : (urlsplitPy u []).path = lit "/"
    · left
      rw [if_pos hps]
    · right
      rw [if_neg hps]
      exact rstripChar_idem '/' _

/-- C6 (counterexample): `normalize_url` is not idempotent in general.
`http://e.com/a;/` loses its trailing `;` only on the second pass (the
first pass exposes the `;` to `urlparse`'s params splitting), and
`/////x` collapses leading slashes differently on each pass. -/
theorem c6_normalize_idempotent_counterexample :
    normalize_url (normalize_url (lit "http://e.com/a;/")) ≠
      normalize_url (lit "http://e.com/a;/") ∧
    normalize_url (normalize_url (lit "/////x")) ≠
      normalize_url (lit "/////x") := by
  constructor
  · decide
  · decide

/-- C6 (witness): the amended idempotence theorem applies to the concrete
URL `http://a.com/x/` (no semicolon in the path, non-empty netloc). -/
theorem c6_normalize_idempotent_witness :
    ';' ∉ (urlsplitPy (lit "http://a.com/x/") []).path ∧
    ¬((urlsplitPy (lit "http://a.com/x/") []).netloc = [] ∧
      (urlsplitPy (lit "http://a.com/x/") []).path.take 2 = lit "//") ∧
    normalize_url (normalize_url (lit "http://a.com/x/")) =
      normalize_url (lit "http://a.com/x/") :=
  ⟨by decide, by decide, c6_normalize_idempotent _ (by decide) (by decide)⟩

end Crawler
